import Mathlib

/-!
Shallow embedding of the dominance-pruning knapsack optimizer of
`generate_report.py` (classes `KnapsackWeight`, `KnapsackItem`,
`BestKnapsackItemForModifierGTE`, `KnapsackSolution`, `KnapsackItemSlot`).

Python floats are modelled by `ℚ` (all claims are order/arithmetic claims, not
rounding claims), Python tuples of strings by `List String`, Python sets by
lists with membership-guarded insertion.  Python's `bisect` functions, which
assume their list argument sorted, are modelled by the count of elements on the
left of the insertion point, which coincides with binary search on sorted
lists; `sorted()` (a stable sort driven by `__lt__`) is modelled by a stable
insertion sort driven by the embedded `__lt__`, which agrees with every stable
sort whenever the comparator induces a total preorder.
-/

/-- Embedding of `KnapsackWeight`: a flat cost plus a multiplicative modifier. -/
structure KnapsackWeight where
  cost : ℚ
  modifier : ℚ
deriving DecidableEq, Repr

/-- Embedding of `KnapsackItem`: weight, value, identity tuple (`name`), and the
set of equally-good alternative identities.  `name = None` of the `ZERO` item is
modelled by the empty list, which behaves identically under the
`sum(filter(None, ...))` concatenation of `__add__`. -/
structure KnapsackItem where
  weight : KnapsackWeight
  value : ℚ
  name : List String
  alternatives : List (List String)
deriving DecidableEq, Repr

/-- Embedding of `KnapsackWeight.__lt__`: ascending cost, ties broken by
descending modifier. -/
def weightLt (a b : KnapsackWeight) : Prop :=
  a.cost < b.cost ∨ (a.cost = b.cost ∧ b.modifier < a.modifier)

instance (a b : KnapsackWeight) : Decidable (weightLt a b) :=
  inferInstanceAs (Decidable (a.cost < b.cost ∨ (a.cost = b.cost ∧ b.modifier < a.modifier)))

/-- Embedding of `functools.total_ordering`'s derived `__gt__` for weights:
`a > b` is `not (a < b or a == b)`. -/
def weightGt (a b : KnapsackWeight) : Prop :=
  ¬ (weightLt a b ∨ a = b)

instance (a b : KnapsackWeight) : Decidable (weightGt a b) :=
  inferInstanceAs (Decidable (¬ _))

/-- Embedding of `KnapsackWeight.__add__`: costs add, modifiers multiply. -/
def weightAdd (a b : KnapsackWeight) : KnapsackWeight :=
  ⟨a.cost + b.cost, a.modifier * b.modifier⟩

/-- Lexicographic comparison of character lists by code point, the semantics of
Python string comparison. -/
def charListLt : List Char → List Char → Bool
  | [], [] => false
  | [], _ :: _ => true
  | _ :: _, [] => false
  | c :: cs, d :: ds => if c < d then true else if c = d then charListLt cs ds else false

/-- Python string `<`. -/
def strLt (a b : String) : Bool :=
  charListLt a.data b.data

/-- Python tuple-of-strings `<` (lexicographic), used by `KnapsackItem.__lt__`
on the `name` field. -/
def nameLt : List String → List String → Bool
  | [], [] => false
  | [], _ :: _ => true
  | _ :: _, [] => false
  | a :: as, b :: bs => if strLt a b then true else if a = b then nameLt as bs else false

/-- Embedding of `KnapsackItem.__lt__`, clause for clause: sort by weight, then
inverted value; the third clause compares names whenever the values tie,
without re-checking the weights (exactly as the source does). -/
def itemLt (a b : KnapsackItem) : Prop :=
  weightLt a.weight b.weight ∨
    (a.weight = b.weight ∧ b.value < a.value) ∨
    (a.value = b.value ∧ nameLt a.name b.name = true)

instance (a b : KnapsackItem) : Decidable (itemLt a b) :=
  inferInstanceAs (Decidable (_ ∨ _))

/-- The non-strict order induced by `itemLt`, as used by a stable sort: `a` may
stay left of `b` iff `¬ itemLt b a`. -/
def itemLe (a b : KnapsackItem) : Prop :=
  ¬ itemLt b a

instance (a b : KnapsackItem) : Decidable (itemLe a b) :=
  inferInstanceAs (Decidable (¬ _))

/-- Stable insertion of an element arriving after the elements of the list:
it passes over every element it is not strictly below. -/
def insertItem (x : KnapsackItem) : List KnapsackItem → List KnapsackItem
  | [] => [x]
  | y :: ys => if itemLt x y then x :: y :: ys else y :: insertItem x ys

/-- Model of Python `sorted()` on `KnapsackItem` lists: a stable sort driven by
the embedded `__lt__`. -/
def sortItems (l : List KnapsackItem) : List KnapsackItem :=
  l.foldl (fun acc x => insertItem x acc) []

/-- Embedding of `KnapsackItem.__add__`: weights combine, values add, names
concatenate (`None`/empty filtered away), alternatives union. -/
def itemAdd (a b : KnapsackItem) : KnapsackItem :=
  ⟨weightAdd a.weight b.weight, a.value + b.value, a.name ++ b.name,
    (a.alternatives ++ b.alternatives).foldl
      (fun acc n => if n ∈ acc then acc else acc ++ [n]) []⟩

/-- Embedding of `KnapsackItem.ZERO`: cost `0.0` wrapped into a weight with the
default modifier `1.0`, value `0.0`, name `None`. -/
def itemZERO : KnapsackItem :=
  ⟨⟨0, 1⟩, 0, [], []⟩

/-- Embedding of `KnapsackItem.without_weight_modifiers`: unless both the extra
cost is falsy and the weight has no modifier, rescale the cost to
`(cost + extra) / (max_cost * modifier)` and reset the modifier to `1.0`. -/
def withoutWeightModifiers (item : KnapsackItem) (maxWeightCost extraWeightCost : ℚ) :
    KnapsackItem :=
  if extraWeightCost = 0 ∧ item.weight.modifier = 1 then item
  else
    ⟨⟨(item.weight.cost + extraWeightCost) / (maxWeightCost * item.weight.modifier), 1⟩,
      item.value, item.name, item.alternatives⟩

/-!
`BestKnapsackItemForModifierGTE` keeps a sorted list `_keys` of seen modifiers
and a dict `_dict` from each key to the best item known at or above it.  We
fuse the two into one association list sorted by key.  `bisect.bisect_left`
on the sorted key list is modelled by splitting at the first key `≥` the new
key via `takeWhile`/`dropWhile`.
-/

/-- The backward walk of `BestKnapsackItemForModifierGTE.add` (lines
`while True: index -= 1 ...`), expressed on the reversed prefix of entries
below the inserted key: overwrite entries whose value is strictly below the
added item's value, stop at the first entry at least as good. -/
def walkBack (item : KnapsackItem) : List (ℚ × KnapsackItem) → List (ℚ × KnapsackItem)
  | [] => []
  | (k, x) :: rest =>
    if x.value < item.value then (k, item) :: walkBack item rest else (k, x) :: rest

/-- Embedding of `BestKnapsackItemForModifierGTE.add`. -/
def frontierAdd (f : List (ℚ × KnapsackItem)) (item : KnapsackItem) :
    List (ℚ × KnapsackItem) :=
  let key := item.weight.modifier
  let pre := f.takeWhile (fun e => decide (e.1 < key))
  let post := f.dropWhile (fun e => decide (e.1 < key))
  let pre2 := (walkBack item pre.reverse).reverse
  match post with
  | [] => pre2 ++ [(key, item)]
  | (k0, cur) :: tl =>
    if k0 = key then
      let atKey := if cur.value < item.value then item else cur
      let atKey2 := match tl with
        | [] => atKey
        | (_, nxt) :: _ => if item.value < nxt.value then nxt else atKey
      pre2 ++ (key, atKey2) :: tl
    else
      let atKey2 := if item.value < cur.value then cur else item
      pre2 ++ (key, atKey2) :: post

/-- Embedding of `BestKnapsackItemForModifierGTE.lookup` on a query modifier:
the best item at the smallest recorded key `≥` the query; the `IndexError`
branch becomes `none`. -/
def frontierLookup (f : List (ℚ × KnapsackItem)) (m : ℚ) : Option KnapsackItem :=
  match f.dropWhile (fun e => decide (e.1 < m)) with
  | [] => none
  | e :: _ => some e.2

/-- The frontier obtained by adding the given items in order, starting empty. -/
def frontierOfAdds (adds : List KnapsackItem) : List (ℚ × KnapsackItem) :=
  adds.foldl frontierAdd []

/-- Chronological well-behavedness of an add sequence: each added item's value
is at least the value `lookup` reports at its own modifier just before the add.
Every add performed by the `KnapsackItemSlot` reduction scan satisfies this,
because an item whose value is below its possible dominator's is never added. -/
def addOk (f : List (ℚ × KnapsackItem)) (a : KnapsackItem) : Bool :=
  match frontierLookup f a.weight.modifier with
  | some d => decide (d.value ≤ a.value)
  | none => true

/-- Chronological well-behavedness of a whole add sequence from a given
frontier state. -/
def goodFrom (f : List (ℚ × KnapsackItem)) : List KnapsackItem → Prop
  | [] => True
  | a :: rest => addOk f a = true ∧ goodFrom (frontierAdd f a) rest

instance : ∀ f l, Decidable (goodFrom f l)
  | _, [] => inferInstanceAs (Decidable True)
  | f, a :: rest =>
    haveI : Decidable (goodFrom (frontierAdd f a) rest) := instDecidableGoodFrom _ rest
    inferInstanceAs (Decidable (_ ∧ _))

/-- An add sequence whose every add is well-behaved in the sense of
`goodFrom`, starting from the empty frontier. -/
def goodAdds (adds : List KnapsackItem) : Prop :=
  goodFrom [] adds

/-!
The `KnapsackItemSlot.__init__` dominance-reduction scan.  The loop body keeps
mutable state: the modifier frontier, the last top survivor (with the position
where it sits in the kept list, so that an exact alternative can be merged into
it), the per-name dominated counts (`lesser_item_count`), the `_has_modifiers`
flag, and the list of items kept so far.
-/

/-- State of one reduction scan over a sorted item list. -/
structure ScanState where
  frontier : List (ℚ × KnapsackItem)
  lastTop : Option KnapsackItem
  lastTopIdx : ℕ
  lesser : List String → ℕ
  hasMod : Bool
  acc : List KnapsackItem

/-- The initial scan state (per iteration of the outer loop; `_has_modifiers`
carries over between iterations). -/
def initScanState (hm : Bool) : ScanState :=
  ⟨[], none, 0, fun _ => 0, hm, []⟩

/-- The `dominated`/`alternative` computation of one scan step, together with
the updated `lesser_item_count` map: first the frontier check against the
possible dominator, then (overriding it) the exact-alternative check against
the last top survivor. -/
def dominatedAlt (st : ScanState) (item : KnapsackItem) :
    ℕ × Bool × (List String → ℕ) :=
  let firstStep :=
    match frontierLookup st.frontier item.weight.modifier with
    | some p =>
      if item.value < p.value ∨ (item.value = p.value ∧ weightGt item.weight p.weight) then
        let c := st.lesser item.name + 1
        (c, fun n => if n = item.name then c else st.lesser n)
      else (0, st.lesser)
    | none => (0, st.lesser)
  match st.lastTop with
  | some lt =>
    if item.value = lt.value ∧ item.weight = lt.weight then
      let c := firstStep.2 lt.name + 1
      (c, true, fun n => if n = lt.name then c else firstStep.2 n)
    else (firstStep.1, false, firstStep.2)
  | none => (firstStep.1, false, firstStep.2)

/-- Record an identity in a survivor's alternative set (`set.add`: a no-op when
already present). -/
def addAlternative (x : KnapsackItem) (n : List String) : KnapsackItem :=
  if n ∈ x.alternatives then x else ⟨x.weight, x.value, x.name, x.alternatives ++ [n]⟩

/-- Merge an alternative identity into the kept item at the given position. -/
def mergeAltAt (l : List KnapsackItem) (i : ℕ) (n : List String) : List KnapsackItem :=
  match l, i with
  | [], _ => []
  | x :: xs, 0 => addAlternative x n :: xs
  | x :: xs, j + 1 => x :: mergeAltAt xs j n

/-- One step of the reduction scan: drop a dominated item once its dominated
count exceeds `count - 1` (merging its identity if it was an exact
alternative), keep it as a fallback otherwise, and make a non-dominated item
the new top survivor and a frontier entry. -/
def scanStep (count : ℕ) (st : ScanState) (item : KnapsackItem) : ScanState :=
  let da := dominatedAlt st item
  let d := da.1
  let alt := da.2.1
  let les2 := da.2.2
  if 0 < d then
    if count < d + 1 then
      let acc2 :=
        if alt then
          match st.lastTop with
          | some lt => mergeAltAt st.acc st.lastTopIdx item.name
          | none => st.acc
        else st.acc
      ⟨st.frontier, st.lastTop, st.lastTopIdx, les2, st.hasMod, acc2⟩
    else
      ⟨st.frontier, st.lastTop, st.lastTopIdx, les2,
        st.hasMod || decide (item.weight.modifier ≠ 1), st.acc ++ [item]⟩
  else
    ⟨frontierAdd st.frontier item, some item, st.acc.length, les2,
      st.hasMod || decide (item.weight.modifier ≠ 1), st.acc ++ [item]⟩

/-- The full scan over a (sorted) item list. -/
def scanGo (count : ℕ) (st : ScanState) : List KnapsackItem → ScanState
  | [] => st
  | item :: rest => scanGo count (scanStep count st item) rest

/-- Run one scan from a fresh state, carrying the `_has_modifiers` flag. -/
def scanAll (count : ℕ) (hm : Bool) (l : List KnapsackItem) : List KnapsackItem × Bool :=
  let st := scanGo count (initScanState hm) l
  (st.acc, st.hasMod)

/-- Embedding of `itertools.combinations(l, r)`: all size-`r` sublists in the
order itertools yields them. -/
def combos : ℕ → List KnapsackItem → List (List KnapsackItem)
  | 0, _ => [[]]
  | _ + 1, [] => []
  | r + 1, x :: xs => (combos r xs).map (fun g => x :: g) ++ combos (r + 1) xs

/-- Embedding of `itertools.product(*([l] * r))`: all length-`r` selections
with repetition, rightmost position varying fastest. -/
def prodPow : ℕ → List KnapsackItem → List (List KnapsackItem)
  | 0, _ => [[]]
  | r + 1, l => (l.map (fun x => (prodPow r l).map (fun g => x :: g))).flatten

/-- Embedding of `sum(items, KnapsackItem.ZERO)`. -/
def sumItems (g : List KnapsackItem) : KnapsackItem :=
  g.foldl itemAdd itemZERO

/-- Embedding of the `KnapsackItemSlot.__init__` loop body on a list argument.
The loop runs the sort-and-scan pass once; if more than one pick is possible it
replaces the items by all `possible_slots`-sized combinations, resets `count`
to `1` and runs the pass once more, after which `possible_slots` can no longer
exceed `1` and the loop exits.  Returns the final item list and the
`_has_modifiers` flag. -/
def knapsackSlotItems (items : List KnapsackItem) (count : ℕ) (allowDuplicates : Bool) :
    List KnapsackItem × Bool :=
  let pass1 := scanAll count false (sortItems items)
  let possibleSlots := min pass1.1.length count
  if 1 < possibleSlots then
    let groups :=
      if allowDuplicates then prodPow possibleSlots pass1.1 else combos possibleSlots pass1.1
    scanAll 1 pass1.2 (sortItems (groups.map sumItems))
  else pass1

/-- Embedding of `KnapsackItemSlot`: the reduced item list plus the
`_has_modifiers` flag. -/
structure KnapsackItemSlot where
  items : List KnapsackItem
  hasModifiers : Bool
deriving Repr

/-- Embedding of the `KnapsackItemSlot` constructor. -/
def slotInit (items : List KnapsackItem) (count : ℕ) (allowDuplicates : Bool) :
    KnapsackItemSlot :=
  let r := knapsackSlotItems items count allowDuplicates
  ⟨r.1, r.2⟩

/-- Embedding of `KnapsackItemSlot.__add__`: the cross product of the two item
lists, combined pairwise and reduced again with the default `count = 1`. -/
def slotAdd (a b : KnapsackItemSlot) : KnapsackItemSlot :=
  slotInit ((a.items.map (fun x => b.items.map (fun y => itemAdd x y))).flatten) 1 false

/-- One round of `KnapsackItemSlot.combine_in_pairs`: combine adjacent pairs,
an unpaired last slot stays at the end. -/
def pairUp : List KnapsackItemSlot → List KnapsackItemSlot
  | a :: b :: rest => slotAdd a b :: pairUp rest
  | l => l

theorem pairUp_length (l : List KnapsackItemSlot) :
    (pairUp l).length = (l.length + 1) / 2 := by
  match l with
  | [] => simp [pairUp]
  | [a] => simp [pairUp]
  | a :: b :: rest =>
    simp only [pairUp, List.length_cons]
    rw [pairUp_length rest]
    omega

/-- The `while len(slots) > 1` loop of `combine_in_pairs`. -/
def combineLoop (l : List KnapsackItemSlot) : List KnapsackItemSlot :=
  if h : 1 < l.length then combineLoop (pairUp l) else l
termination_by l.length
decreasing_by
  rw [pairUp_length]
  omega

/-- Embedding of `KnapsackItemSlot.combine_in_pairs` on a sequence of slots:
the final `slots[0]`; the `IndexError` on an empty sequence becomes `none`. -/
def combineInPairs (l : List KnapsackItemSlot) : Option KnapsackItemSlot :=
  (combineLoop l).head?

/-!
`KnapsackSolution`: a dict keyed by weight (Python dict semantics: insertion
order, replacement keeps the original position) plus the key list used for
budget queries.
-/

/-- Python dict insertion `d[item.weight] = item`: replace the entry at the
existing key position, else append. -/
def dictInsert (es : List (KnapsackWeight × KnapsackItem)) (it : KnapsackItem) :
    List (KnapsackWeight × KnapsackItem) :=
  match es with
  | [] => [(it.weight, it)]
  | e :: rest => if e.1 = it.weight then (e.1, it) :: rest else e :: dictInsert rest it

/-- Embedding of `{ item.weight: item for item in items }`. -/
def buildDict (l : List KnapsackItem) : List (KnapsackWeight × KnapsackItem) :=
  l.foldl dictInsert []

/-- Embedding of the `KnapsackSolution` constructor: optional sort, then the
weight-keyed dict (whose key list is `_sorted_weights`). -/
def solutionEntries (items : List KnapsackItem) (sort : Bool) :
    List (KnapsackWeight × KnapsackItem) :=
  buildDict (if sort then sortItems items else items)

/-- Model of `bisect.bisect_right(sorted_weights, w)`: the number of keys at or
below the query, which is the insertion point binary search computes on a
sorted key list. -/
def bisectRightWeights (entries : List (KnapsackWeight × KnapsackItem))
    (qw : KnapsackWeight) : ℕ :=
  entries.countP (fun e => decide (¬ weightLt qw e.1))

/-- Embedding of `KnapsackSolution.best_for_cost`: the query weight is the bare
cost with the default modifier `1.0`; `index == -1` returns `None` (`none`),
otherwise the up-to-`count` entries just below the insertion point, highest
weight first. -/
def bestForCost (entries : List (KnapsackWeight × KnapsackItem)) (cost : ℚ)
    (count : ℕ) : Option (List KnapsackItem) :=
  let qw : KnapsackWeight := ⟨cost, 1⟩
  let n := bisectRightWeights entries qw
  if n = 0 then none
  else some ((((entries.take n).drop (n - count)).reverse).map Prod.snd)

/-- Embedding of `KnapsackItemSlot.solution_by_weight_percentage`: when any
modifier or extra cost is present, normalize every item and reduce again
through a fresh slot; then build the solution without re-sorting. -/
def solutionByWeightPercentage (slot : KnapsackItemSlot)
    (maxWeightCost extraWeightCost : ℚ) : List (KnapsackWeight × KnapsackItem) :=
  let items :=
    if slot.hasModifiers = false ∧ extraWeightCost = 0 then slot.items
    else (slotInit (slot.items.map
      (fun item => withoutWeightModifiers item maxWeightCost extraWeightCost)) 1 false).items
  solutionEntries items false

instance (l : List KnapsackItem) : Decidable (goodAdds l) :=
  inferInstanceAs (Decidable (goodFrom [] l))

/-- The invariant of `BestKnapsackItemForModifierGTE` over the set `P` of items
added so far: the key list is strictly sorted, the keys are exactly the
modifiers of the added items, and each entry holds an added item whose modifier
is at least the key and whose value is the maximum value over all added items
with modifier at least the key. -/
def FrontierInv (f : List (ℚ × KnapsackItem)) (P : KnapsackItem → Prop) : Prop :=
  (f.map Prod.fst).Pairwise (· < ·) ∧
  (∀ k : ℚ, k ∈ f.map Prod.fst ↔ ∃ a, P a ∧ a.weight.modifier = k) ∧
  (∀ e ∈ f, P e.2 ∧ e.1 ≤ e.2.weight.modifier ∧
    ∀ a, P a → e.1 ≤ a.weight.modifier → a.value ≤ e.2.value)

/-- The ordering in which survivors of a `count = 1` scan over modifier-free
items accumulate: strictly increasing cost and strictly increasing value. -/
def scanOrder (a b : KnapsackItem) : Prop :=
  a.weight.cost < b.weight.cost ∧ a.value < b.value

/-- The invariant of one `count = 1` reduction scan over items whose modifiers
are all `1.0`: the kept items are strictly increasing in cost and value, the
frontier is a single entry at key `1` holding the running maximum value, and
the last top survivor carries that maximum. -/
def ScanInv1 (st : ScanState) : Prop :=
  st.acc.Pairwise scanOrder ∧
  (∀ x ∈ st.acc, x.weight.modifier = 1) ∧
  (st.acc = [] → st.frontier = [] ∧ st.lastTop = none) ∧
  (st.acc ≠ [] → ∃ d L,
    st.frontier = [(1, d)] ∧ st.lastTop = some L ∧ L.value = d.value ∧
    (∃ x ∈ st.acc, x.weight = d.weight ∧ x.value = d.value) ∧
    (∃ xl ∈ st.acc, xl.weight = L.weight ∧ xl.value = L.value) ∧
    (∀ x ∈ st.acc, x.value ≤ d.value))

/-- Strict dominance in the sense of the spec: no worse in cost, modifier and
value, and strictly better in at least one of them. -/
def strictlyDominates (a b : KnapsackItem) : Prop :=
  a.weight.cost ≤ b.weight.cost ∧ b.weight.modifier ≤ a.weight.modifier ∧
    b.value ≤ a.value ∧
    (a.weight.cost < b.weight.cost ∨ b.weight.modifier < a.weight.modifier ∨
      b.value < a.value)

instance (a b : KnapsackItem) : Decidable (strictlyDominates a b) :=
  inferInstanceAs (Decidable (_ ∧ _))

/-- Lookup in a weight-keyed dict (first entry with the key; the key is unique
in every dict the program builds). -/
def dictFind (es : List (KnapsackWeight × KnapsackItem)) (w : KnapsackWeight) :
    Option KnapsackItem :=
  match es with
  | [] => none
  | e :: rest => if e.1 = w then some e.2 else dictFind rest w

/-- The last item of a list carrying the given weight, if any. -/
def lastWith (w : KnapsackWeight) : List KnapsackItem → Option KnapsackItem
  | [] => none
  | i :: t =>
    match lastWith w t with
    | some j => some j
    | none => if i.weight = w then some i else none

/-!
Theorems.  Each claim of the specification audit is settled by one theorem
below; shared helper lemmas carry no claim name.  Batteries marks rational
arithmetic `@[irreducible]` for performance; concrete evaluation of the
embedded program needs it reducible again (the kernel ignores reducibility
attributes, so proofs are unaffected).
-/

section

set_option allowUnsafeReducibility true

attribute [local semireducible] Rat.add Rat.mul Rat.sub Rat.div Rat.inv

/-- C7: the claim asserts `KnapsackItem.__lt__` is a strict total order —
in particular asymmetric.  It is not: for `a = (cost 2, modifier 1, value 5,
name A)` and `b = (cost 1, modifier 1, value 5, name B)`, `b < a` holds through
the weight clause while `a < b` holds through the value-tie name clause, which
fails to re-check the weights.  This contradicts the source's own comment
("sort by weight then inverted value") and the contract of
`functools.total_ordering`. -/
theorem C7_item_order_not_asymmetric :
    itemLt ⟨⟨2, 1⟩, 5, ["A"], []⟩ ⟨⟨1, 1⟩, 5, ["B"], []⟩ ∧
      itemLt ⟨⟨1, 1⟩, 5, ["B"], []⟩ ⟨⟨2, 1⟩, 5, ["A"], []⟩ := by
  decide

/-- C2: the claim asserts that after a `count = 1` reduction no surviving
candidate is strictly dominated by another survivor.  The flawed `__lt__`
(see `C7_item_order_not_asymmetric`) makes the sort place
`A = (cost 2, modifier 1, value 5)` before `B = (cost 1, modifier 2, value 5)`
on input `[B, A]`; the scan then keeps both, although `B` strictly dominates
`A`.  The spec's property is clearly the intent (it is the stated purpose of
the reduction), so this is a code bug, not a spec error. -/
theorem C2_dominated_pair_survives :
    (knapsackSlotItems
        [⟨⟨1, 2⟩, 5, ["B"], []⟩, ⟨⟨2, 1⟩, 5, ["A"], []⟩] 1 false).1 =
      [⟨⟨2, 1⟩, 5, ["A"], []⟩, ⟨⟨1, 2⟩, 5, ["B"], []⟩] ∧
    strictlyDominates ⟨⟨1, 2⟩, 5, ["B"], []⟩ ⟨⟨2, 1⟩, 5, ["A"], []⟩ := by
  constructor
  · rfl
  · decide

/-- C4: the two-pick ring scenario.  From `R1 (cost 1, value 5)`,
`R2 (cost 1, value 5)`, `R3 (cost 2, value 3)` with `count = 2`, the
constructed slot's final candidate set contains the selection with both
identities `R1` and `R2` (the tied pair survives reduction as one combined
pick rather than one of them being discarded as a duplicate). -/
theorem C4_two_pick_retains_tied_pair :
    ∃ c ∈ (knapsackSlotItems
        [⟨⟨1, 1⟩, 5, ["R1"], []⟩, ⟨⟨1, 1⟩, 5, ["R2"], []⟩,
          ⟨⟨2, 1⟩, 3, ["R3"], []⟩] 2 false).1,
      "R1" ∈ c.name ∧ "R2" ∈ c.name := by
  decide

/-- C5 counterexample: `without_weight_modifiers` does not always produce the
normalized cost `(cost + extra) / (max_cost * modifier)`.  When the extra cost
is `0` and the modifier is `1.0` the method returns `self` unchanged, so for
`weight = (cost 10, modifier 1)`, `max_cost = 50`, `extra_cost = 0` — all
inside the claim's quantified domain — the produced cost is `10`, not
`10 / 50`. -/
theorem C5_normalize_counterexample :
    withoutWeightModifiers ⟨⟨10, 1⟩, 7, ["I"], []⟩ 50 0 = ⟨⟨10, 1⟩, 7, ["I"], []⟩ ∧
    (0 : ℚ) ≤ 10 ∧ (0 : ℚ) < 1 ∧ (0 : ℚ) < 50 ∧ (0 : ℚ) ≤ 0 ∧
    ((10 : ℚ) ≠ (10 + 0) / (50 * 1)) := by
  refine ⟨rfl, by norm_num⟩

/-- C5 amended: whenever the early-return guard does not fire — the extra cost
is nonzero or the weight has a modifier — `without_weight_modifiers` produces
exactly the claimed candidate: cost `(cost + extra) / (max_cost * modifier)`,
modifier `1.0`, and value, identity and alternatives unchanged. -/
theorem C5_normalize_amended (item : KnapsackItem) (maxWeightCost extraWeightCost : ℚ)
    (hcost : 0 ≤ item.weight.cost) (hmod : 0 < item.weight.modifier)
    (hmax : 0 < maxWeightCost) (hextra : 0 ≤ extraWeightCost)
    (hguard : ¬ (extraWeightCost = 0 ∧ item.weight.modifier = 1)) :
    withoutWeightModifiers item maxWeightCost extraWeightCost =
      ⟨⟨(item.weight.cost + extraWeightCost) / (maxWeightCost * item.weight.modifier), 1⟩,
        item.value, item.name, item.alternatives⟩ := by
  unfold withoutWeightModifiers
  rw [if_neg hguard]

/-- Witness for `C5_normalize_amended` at the spec's own scenario:
`normalize(weight = (cost 10, modifier 1.05), max_cost = 50, extra_cost = 2)`
equals `(10 + 2) / (50 * 1.05)`. -/
theorem C5_normalize_witness :
    (0 : ℚ) ≤ 10 ∧ (0 : ℚ) < 21 / 20 ∧ (0 : ℚ) < 50 ∧ (0 : ℚ) ≤ 2 ∧
      ¬ ((2 : ℚ) = 0 ∧ (21 / 20 : ℚ) = 1) ∧
      withoutWeightModifiers ⟨⟨10, 21 / 20⟩, 7, ["I"], []⟩ 50 2 =
        ⟨⟨(10 + 2) / (50 * (21 / 20)), 1⟩, 7, ["I"], []⟩ := by
  refine ⟨by norm_num, by norm_num, by norm_num, by norm_num, by norm_num, ?_⟩
  exact C5_normalize_amended ⟨⟨10, 21 / 20⟩, 7, ["I"], []⟩ 50 2
    (by norm_num) (by norm_num) (by norm_num) (by norm_num) (by norm_num)

/-- C1 counterexample: over an arbitrary add sequence the lookup invariant
fails.  Adding `X (modifier 1, value 10)`, then `Y (modifier 2, value 7)`,
then `Z (modifier 1, value 5)` makes the "if the next value is larger" step of
`add` overwrite the key-`1` entry (holding `X`, value `10`) with `Y`
(value `7`), so `lookup(1)` returns value `7` although the added `X` has
modifier `≥ 1` and value `10`. -/
theorem C1_lookup_counterexample :
    frontierLookup (frontierOfAdds
        [⟨⟨0, 1⟩, 10, ["X"], []⟩, ⟨⟨0, 2⟩, 7, ["Y"], []⟩, ⟨⟨0, 1⟩, 5, ["Z"], []⟩]) 1 =
      some ⟨⟨0, 2⟩, 7, ["Y"], []⟩ ∧
    ⟨⟨0, 1⟩, 10, ["X"], []⟩ ∈
      [⟨⟨0, 1⟩, 10, ["X"], []⟩, ⟨⟨0, 2⟩, 7, ["Y"], []⟩, (⟨⟨0, 1⟩, 5, ["Z"], []⟩ : KnapsackItem)] ∧
    (1 : ℚ) ≤ (1 : ℚ) ∧ (7 : ℚ) < 10 := by
  refine ⟨rfl, by decide, by norm_num, by norm_num⟩

/-- C6 counterexample: when no stored candidate fits under the budget,
`best_for_cost` returns `None` — an absent value — not an explicit empty
result.  Frontier holding one candidate of cost `5`, budget `3`. -/
theorem C6_empty_budget_counterexample :
    bestForCost (solutionEntries [⟨⟨5, 1⟩, 1, ["I"], []⟩] true) 3 1 = none ∧
    bestForCost (solutionEntries [⟨⟨5, 1⟩, 1, ["I"], []⟩] true) 3 1 ≠ some [] ∧
    ∀ e ∈ solutionEntries [⟨⟨5, 1⟩, 1, ["I"], []⟩] true, ¬ e.2.weight.cost ≤ 3 := by
  refine ⟨rfl, by decide, by decide⟩


theorem combineLoop_nil : combineLoop [] = [] := by
  rw [combineLoop]
  simp

theorem combineLoop_ne_nil :
    ∀ (n : ℕ) (l : List KnapsackItemSlot), l.length ≤ n → l ≠ [] → combineLoop l ≠ [] := by
  intro n
  induction n with
  | zero =>
    intro l hl hne
    cases l with
    | nil => exact absurd rfl hne
    | cons a t => simp at hl
  | succ n ih =>
    intro l hl hne
    rw [combineLoop]
    by_cases h : 1 < l.length
    · rw [dif_pos h]
      refine ih (pairUp l) ?_ ?_
      · rw [pairUp_length]
        omega
      · intro hcontra
        have := congrArg List.length hcontra
        rw [pairUp_length] at this
        simp at this
        omega
    · rw [dif_neg h]
      exact hne

/-- C10: `combine_in_pairs` terminates and yields a slot exactly on non-empty
input; on the empty sequence the final `slots[0]` raises `IndexError`
(modelled by `none`), so non-emptiness is the precondition under which the
error branch is unreachable.  Pairing of adjacent slots with the odd leftover
carried to the next round is `pairUp`; termination is by the halving of the
list length. -/
theorem C10_combine_in_pairs_some_iff_nonempty (l : List KnapsackItemSlot) :
    (combineInPairs l).isSome = true ↔ l ≠ [] := by
  unfold combineInPairs
  constructor
  · intro h hnil
    subst hnil
    rw [combineLoop_nil] at h
    simp at h
  · intro h
    have hne := combineLoop_ne_nil l.length l le_rfl h
    cases hcl : combineLoop l with
    | nil => exact absurd hcl hne
    | cons a t => simp

theorem addAlternative_name (x : KnapsackItem) (n : List String) :
    (addAlternative x n).name = x.name := by
  unfold addAlternative
  split <;> rfl

theorem mergeAltAt_names (n : List String) :
    ∀ (l : List KnapsackItem) (i : ℕ), ∀ y ∈ mergeAltAt l i n, ∃ x ∈ l, y.name = x.name := by
  intro l
  induction l with
  | nil => intro i y hy; simp [mergeAltAt] at hy
  | cons a t ih =>
    intro i y hy
    cases i with
    | zero =>
      simp only [mergeAltAt, List.mem_cons] at hy
      rcases hy with hy | hy
      · exact ⟨a, List.mem_cons_self a t, by rw [hy, addAlternative_name]⟩
      · exact ⟨y, List.mem_cons_of_mem a hy, rfl⟩
    | succ j =>
      simp only [mergeAltAt, List.mem_cons] at hy
      rcases hy with hy | hy
      · exact ⟨a, List.mem_cons_self a t, by rw [hy]⟩
      · rcases ih j y hy with ⟨x, hx, hxy⟩
        exact ⟨x, List.mem_cons_of_mem a hx, hxy⟩

/-- C3: during a reduction scan with pick count `count`, an item found
dominated (`dominated > 0`) is physically removed from the kept list exactly
when its accumulated dominated-count pushes past `count - 1`
(`dominated + 1 > count` in the source); below that threshold it stays in the
list as a fallback.  Stated over an arbitrary scan state whose kept items do
not already carry the processed item's identity. -/
theorem C3_removal_threshold (count : ℕ) (st : ScanState) (item : KnapsackItem)
    (hname : ∀ x ∈ st.acc, x.name ≠ item.name)
    (hd : 0 < (dominatedAlt st item).1) :
    (item ∈ (scanGo count st [item]).acc ↔ (dominatedAlt st item).1 + 1 ≤ count) := by
  have hstep : scanGo count st [item] = scanStep count st item := rfl
  rw [hstep]
  by_cases hc : count < (dominatedAlt st item).1 + 1
  · have hacc : (scanStep count st item).acc =
        (if (dominatedAlt st item).2.1 then
          (match st.lastTop with
            | some _ => mergeAltAt st.acc st.lastTopIdx item.name
            | none => st.acc)
        else st.acc) := by
      simp only [scanStep]
      rw [if_pos hd, if_pos hc]
    rw [hacc]
    constructor
    · intro hmem
      exfalso
      by_cases halt : (dominatedAlt st item).2.1
      · rw [if_pos halt] at hmem
        cases hlt : st.lastTop with
        | none => rw [hlt] at hmem; exact hname item hmem rfl
        | some L =>
          rw [hlt] at hmem
          rcases mergeAltAt_names item.name st.acc st.lastTopIdx item hmem with ⟨x, hx, hxy⟩
          exact hname x hx hxy.symm
      · rw [if_neg halt] at hmem
        exact hname item hmem rfl
    · intro hle
      omega
  · have hacc : (scanStep count st item).acc = st.acc ++ [item] := by
      simp only [scanStep]
      rw [if_pos hd, if_neg hc]
    rw [hacc]
    constructor
    · intro _
      omega
    · intro _
      simp

/-- Witness for `C3_removal_threshold`: the ring scenario's step in which
`R3 (cost 2, value 3)` is found dominated by the surviving
`R1 (cost 1, value 5)` with accumulated count `1`, under `count = 2`: it is
kept as a fallback since `1 + 1 ≤ 2`. -/
theorem C3_removal_threshold_witness :
    (∀ x ∈ (ScanState.mk [(1, ⟨⟨1, 1⟩, 5, ["R1"], []⟩)] (some ⟨⟨1, 1⟩, 5, ["R1"], []⟩) 0
        (fun _ => 0) false [⟨⟨1, 1⟩, 5, ["R1"], []⟩]).acc, x.name ≠ ["R3"]) ∧
    0 < (dominatedAlt (ScanState.mk [(1, ⟨⟨1, 1⟩, 5, ["R1"], []⟩)] (some ⟨⟨1, 1⟩, 5, ["R1"], []⟩) 0
        (fun _ => 0) false [⟨⟨1, 1⟩, 5, ["R1"], []⟩]) ⟨⟨2, 1⟩, 3, ["R3"], []⟩).1 ∧
    ((⟨⟨2, 1⟩, 3, ["R3"], []⟩ : KnapsackItem) ∈
      (scanGo 2 (ScanState.mk [(1, ⟨⟨1, 1⟩, 5, ["R1"], []⟩)] (some ⟨⟨1, 1⟩, 5, ["R1"], []⟩) 0
        (fun _ => 0) false [⟨⟨1, 1⟩, 5, ["R1"], []⟩]) [⟨⟨2, 1⟩, 3, ["R3"], []⟩]).acc ↔
      (dominatedAlt (ScanState.mk [(1, ⟨⟨1, 1⟩, 5, ["R1"], []⟩)] (some ⟨⟨1, 1⟩, 5, ["R1"], []⟩) 0
        (fun _ => 0) false [⟨⟨1, 1⟩, 5, ["R1"], []⟩]) ⟨⟨2, 1⟩, 3, ["R3"], []⟩).1 + 1 ≤ 2) := by
  refine ⟨by decide, by decide, ?_⟩
  exact C3_removal_threshold 2 _ _ (by decide) (by decide)


theorem dictFind_nil (w : KnapsackWeight) : dictFind [] w = none := rfl

theorem dictFind_cons (e : KnapsackWeight × KnapsackItem)
    (rest : List (KnapsackWeight × KnapsackItem)) (w : KnapsackWeight) :
    dictFind (e :: rest) w = if e.1 = w then some e.2 else dictFind rest w := rfl

theorem dictInsert_nil (it : KnapsackItem) : dictInsert [] it = [(it.weight, it)] := rfl

theorem dictInsert_cons (e : KnapsackWeight × KnapsackItem)
    (rest : List (KnapsackWeight × KnapsackItem)) (it : KnapsackItem) :
    dictInsert (e :: rest) it =
      if e.1 = it.weight then (e.1, it) :: rest else e :: dictInsert rest it := rfl

theorem dictFind_dictInsert (acc : List (KnapsackWeight × KnapsackItem))
    (it : KnapsackItem) (w : KnapsackWeight) :
    dictFind (dictInsert acc it) w =
      if w = it.weight then some it else dictFind acc w := by
  induction acc with
  | nil =>
    by_cases h : w = it.weight
    · simp [dictInsert_nil, dictFind_cons, h]
    · have hit : ¬ it.weight = w := fun hc => h hc.symm
      simp [dictInsert_nil, dictFind_cons, dictFind_nil, hit, h]
  | cons e rest ih =>
    by_cases hkey : e.1 = it.weight
    · by_cases h : w = it.weight
      · simp [dictInsert_cons, dictFind_cons, hkey, h]
      · have hit : ¬ it.weight = w := fun hc => h hc.symm
        simp [dictInsert_cons, dictFind_cons, hkey, hit, h]
    · by_cases hhit : e.1 = w
      · have h : ¬ w = it.weight := by
          intro hc
          exact hkey (hhit.trans hc)
        simp [dictInsert_cons, dictFind_cons, hkey, hhit, h]
      · simp only [dictInsert_cons, if_neg hkey, dictFind_cons, if_neg hhit]
        exact ih

theorem dictFind_buildDict_from (w : KnapsackWeight) :
    ∀ (l : List KnapsackItem) (acc : List (KnapsackWeight × KnapsackItem)),
      dictFind (l.foldl dictInsert acc) w =
        (match lastWith w l with
          | some j => some j
          | none => dictFind acc w) := by
  intro l
  induction l with
  | nil => intro acc; simp [lastWith]
  | cons i t ih =>
    intro acc
    have hfold : ((i :: t).foldl dictInsert acc) = t.foldl dictInsert (dictInsert acc i) := rfl
    rw [hfold, ih]
    cases hlt : lastWith w t with
    | some j => simp [lastWith, hlt]
    | none =>
      simp only [lastWith, hlt]
      rw [dictFind_dictInsert]
      by_cases h : w = i.weight
      · simp [h]
      · have hne : ¬ i.weight = w := fun hc => h hc.symm
        simp [h, hne]

theorem dictInsert_keys (acc : List (KnapsackWeight × KnapsackItem)) (it : KnapsackItem) :
    (dictInsert acc it).map Prod.fst =
      if it.weight ∈ acc.map Prod.fst then acc.map Prod.fst
      else acc.map Prod.fst ++ [it.weight] := by
  induction acc with
  | nil => simp [dictInsert]
  | cons e rest ih =>
    by_cases hkey : e.1 = it.weight
    · simp [dictInsert, hkey]
    · have hne : ¬ it.weight = e.1 := fun hc => hkey hc.symm
      simp only [dictInsert, if_neg hkey, List.map_cons, List.mem_cons]
      rw [ih]
      by_cases hmem : it.weight ∈ rest.map Prod.fst
      · simp [hmem, hne]
      · simp [hmem, hne]

theorem buildDict_keys_nodup :
    ∀ (l : List KnapsackItem) (acc : List (KnapsackWeight × KnapsackItem)),
      (acc.map Prod.fst).Nodup → ((l.foldl dictInsert acc).map Prod.fst).Nodup := by
  intro l
  induction l with
  | nil => intro acc h; exact h
  | cons i t ih =>
    intro acc h
    refine ih (dictInsert acc i) ?_
    rw [dictInsert_keys]
    by_cases hmem : i.weight ∈ acc.map Prod.fst
    · rw [if_pos hmem]; exact h
    · rw [if_neg hmem]
      rw [List.nodup_append]
      exact ⟨h, List.nodup_singleton _, by simpa using hmem⟩

theorem lastWith_eq_none_iff (w : KnapsackWeight) :
    ∀ l : List KnapsackItem, lastWith w l = none ↔ ∀ j ∈ l, j.weight ≠ w := by
  intro l
  induction l with
  | nil => simp [lastWith]
  | cons i t ih =>
    cases hlt : lastWith w t with
    | some j =>
      have hexp : lastWith w (i :: t) = some j := by simp [lastWith, hlt]
      rw [hexp]
      constructor
      · intro hc; cases hc
      · intro hall
        have ht : ∀ j2 ∈ t, j2.weight ≠ w := fun j2 hj2 => hall j2 (List.mem_cons_of_mem i hj2)
        rw [ih.mpr ht] at hlt
        cases hlt
    | none =>
      have hexp : lastWith w (i :: t) = if i.weight = w then some i else none := by
        simp [lastWith, hlt]
      rw [hexp]
      by_cases hw : i.weight = w
      · rw [if_pos hw]
        constructor
        · intro hc; cases hc
        · intro hall; exact absurd hw (hall i (List.mem_cons_self i t))
      · rw [if_neg hw]
        constructor
        · intro _ j2 hj2
          rcases List.mem_cons.mp hj2 with hj2e | hj2t
          · rw [hj2e]; exact hw
          · exact (ih.mp hlt) j2 hj2t
        · intro _; rfl

theorem lastWith_min_value :
    ∀ (s : List KnapsackItem), s.Pairwise itemLe → ∀ (w : KnapsackWeight) (it : KnapsackItem),
      lastWith w s = some it →
      it.weight = w ∧ it ∈ s ∧ ∀ j ∈ s, j.weight = w → it.value ≤ j.value := by
  intro s
  induction s with
  | nil => intro _ w it h; simp [lastWith] at h
  | cons i t ih =>
    intro hp w it h
    have hhead : ∀ y ∈ t, itemLe i y := (List.pairwise_cons.mp hp).1
    have htail : t.Pairwise itemLe := (List.pairwise_cons.mp hp).2
    cases hlt : lastWith w t with
    | some j =>
      have hexp : lastWith w (i :: t) = some j := by simp [lastWith, hlt]
      rw [hexp] at h
      injection h with h
      subst h
      rcases ih htail w j hlt with ⟨hw, hmem, hmin⟩
      refine ⟨hw, List.mem_cons_of_mem i hmem, ?_⟩
      intro j2 hj2 hj2w
      rcases List.mem_cons.mp hj2 with hj2e | hj2t
      · subst hj2e
        have hle : itemLe j2 j := hhead j hmem
        unfold itemLe itemLt at hle
        push_neg at hle
        obtain ⟨h1, h2, h3⟩ := hle
        exact h2 (by rw [hw, hj2w])
      · exact hmin j2 hj2t hj2w
    | none =>
      have hexp : lastWith w (i :: t) = if i.weight = w then some i else none := by
        simp [lastWith, hlt]
      rw [hexp] at h
      by_cases hw : i.weight = w
      · rw [if_pos hw] at h
        injection h with h
        subst h
        refine ⟨hw, List.mem_cons_self i t, ?_⟩
        intro j2 hj2 hj2w
        rcases List.mem_cons.mp hj2 with hj2e | hj2t
        · subst hj2e; exact le_refl _
        · exact absurd hj2w ((lastWith_eq_none_iff w t).mp hlt j2 hj2t)
      · rw [if_neg hw] at h
        cases h

/-- C9: the constructed `KnapsackSolution` stores at most one candidate per
distinct `(cost, modifier)` weight: its `_sorted_weights` keys are distinct,
the candidate stored under a weight is exactly the last item with that weight
in the sorted input (the dict comprehension silently overwrites the earlier
ones), and — whenever the sort produced a genuinely sorted list — that
retained candidate has the lowest value among the equal-weight items. -/
theorem C9_one_candidate_per_weight (l : List KnapsackItem)
    (hs : (sortItems l).Pairwise itemLe) :
    ((solutionEntries l true).map Prod.fst).Nodup ∧
    (∀ w : KnapsackWeight, dictFind (solutionEntries l true) w = lastWith w (sortItems l)) ∧
    (∀ (w : KnapsackWeight) (it : KnapsackItem), lastWith w (sortItems l) = some it →
      ∀ j ∈ sortItems l, j.weight = w → it.value ≤ j.value) := by
  refine ⟨?_, ?_, ?_⟩
  · exact buildDict_keys_nodup (sortItems l) [] List.nodup_nil
  · intro w
    have hse : dictFind (solutionEntries l true) w =
        dictFind ((sortItems l).foldl dictInsert []) w := rfl
    rw [hse, dictFind_buildDict_from w (sortItems l) []]
    cases hlt : lastWith w (sortItems l) with
    | some j => simp
    | none => simp [dictFind_nil]
  · intro w it h
    exact ((lastWith_min_value (sortItems l) hs w it h).2.2)

/-- Witness for `C9_one_candidate_per_weight`: two items of equal weight and
values `5` and `3` — the sorted order is value-descending, the dict retains the
last (value `3`) one. -/
theorem C9_one_candidate_per_weight_witness :
    ((sortItems [⟨⟨1, 1⟩, 3, ["B"], []⟩, ⟨⟨1, 1⟩, 5, ["A"], []⟩]).Pairwise itemLe) ∧
    (dictFind (solutionEntries [⟨⟨1, 1⟩, 3, ["B"], []⟩, ⟨⟨1, 1⟩, 5, ["A"], []⟩] true) ⟨1, 1⟩ =
      some ⟨⟨1, 1⟩, 3, ["B"], []⟩) := by
  refine ⟨by decide, ?_⟩
  have h := (C9_one_candidate_per_weight
      [⟨⟨1, 1⟩, 3, ["B"], []⟩, ⟨⟨1, 1⟩, 5, ["A"], []⟩] (by decide)).2.1 ⟨1, 1⟩
  rw [h]
  decide


theorem weightLt_trans {a b c : KnapsackWeight} (h1 : weightLt a b) (h2 : weightLt b c) :
    weightLt a c := by
  unfold weightLt at h1 h2 ⊢
  rcases h1 with h1 | ⟨h1e, h1m⟩ <;> rcases h2 with h2 | ⟨h2e, h2m⟩
  · exact Or.inl (lt_trans h1 h2)
  · exact Or.inl (by rw [← h2e]; exact h1)
  · exact Or.inl (by rw [h1e]; exact h2)
  · exact Or.inr ⟨h1e.trans h2e, lt_trans h2m h1m⟩

theorem weightLt_irrefl (a : KnapsackWeight) : ¬ weightLt a a := by
  unfold weightLt
  intro h
  rcases h with h | ⟨_, h⟩
  · exact lt_irrefl _ h
  · exact lt_irrefl _ h

theorem weightLt_asymm {a b : KnapsackWeight} (h : weightLt a b) : ¬ weightLt b a := by
  intro h2
  exact weightLt_irrefl a (weightLt_trans h h2)

theorem mem_of_mem_takeWhile {α : Type} (p : α → Bool) :
    ∀ (l : List α) (x : α), x ∈ l.takeWhile p → x ∈ l := by
  intro l
  induction l with
  | nil => intro x hx; simp [List.takeWhile] at hx
  | cons a t ih =>
    intro x hx
    simp only [List.takeWhile] at hx
    cases hpa : p a with
    | true =>
      rw [hpa] at hx
      rcases List.mem_cons.mp hx with hx | hx
      · rw [hx]; exact List.mem_cons_self a t
      · exact List.mem_cons_of_mem a (ih x hx)
    | false =>
      rw [hpa] at hx
      cases hx

theorem countP_eq_takeWhile_length {α : Type} (p : α → Bool) (R : α → α → Prop)
    (hdc : ∀ a b, R a b → p b = true → p a = true) :
    ∀ l : List α, l.Pairwise R → l.countP p = (l.takeWhile p).length := by
  intro l
  induction l with
  | nil => intro _; rfl
  | cons a t ih =>
    intro hp
    have hhead : ∀ y ∈ t, R a y := (List.pairwise_cons.mp hp).1
    have htail : t.Pairwise R := (List.pairwise_cons.mp hp).2
    cases hpa : p a with
    | true =>
      rw [List.countP_cons_of_pos _ _ hpa]
      simp only [List.takeWhile, hpa, List.length_cons]
      rw [ih htail]
    | false =>
      rw [List.countP_cons_of_neg _ _ (by simp [hpa])]
      simp only [List.takeWhile, hpa, List.length_nil]
      have : ∀ y ∈ t, ¬ p y = true := by
        intro y hy hpy
        rw [hdc a y (hhead y hy) hpy] at hpa
        cases hpa
      exact List.countP_eq_zero.mpr this

theorem dropWhile_all_false {α : Type} (p : α → Bool) (R : α → α → Prop)
    (hdc : ∀ a b, R a b → p b = true → p a = true) :
    ∀ l : List α, l.Pairwise R → ∀ e ∈ l.dropWhile p, p e = false := by
  intro l
  induction l with
  | nil => intro _ e he; simp [List.dropWhile] at he
  | cons a t ih =>
    intro hp e he
    have hhead : ∀ y ∈ t, R a y := (List.pairwise_cons.mp hp).1
    have htail : t.Pairwise R := (List.pairwise_cons.mp hp).2
    simp only [List.dropWhile] at he
    cases hpa : p a with
    | true =>
      rw [hpa] at he
      exact ih htail e he
    | false =>
      rw [hpa] at he
      rcases List.mem_cons.mp he with he | he
      · rw [he]; exact hpa
      · cases hpe : p e with
        | true =>
          rw [hdc a e (hhead e he) hpe] at hpa
          cases hpa
        | false => rfl

theorem pairwise_getLast_rel {α : Type} (R : α → α → Prop) :
    ∀ (l : List α), l.Pairwise R → ∀ y, l.getLast? = some y →
      ∀ x ∈ l, x = y ∨ R x y := by
  intro l
  induction l with
  | nil => intro _ y hy; cases hy
  | cons a t ih =>
    intro hp y hy x hx
    have hhead : ∀ z ∈ t, R a z := (List.pairwise_cons.mp hp).1
    have htail : t.Pairwise R := (List.pairwise_cons.mp hp).2
    cases t with
    | nil =>
      simp only [List.getLast?_singleton] at hy
      rcases List.mem_singleton.mp hx with hx
      rw [hx]
      left
      injection hy
    | cons b t2 =>
      rw [List.getLast?_cons_cons] at hy
      rcases List.mem_cons.mp hx with hx | hx
      · right
        rw [hx]
        exact hhead y (List.mem_of_getLast?_eq_some hy)
      · exact ih htail y hy x hx

theorem getLast?_drop_eq {α : Type} :
    ∀ (l : List α) (m : ℕ), m < l.length → (l.drop m).getLast? = l.getLast? := by
  intro l
  induction l with
  | nil => intro m hm; simp at hm
  | cons a t ih =>
    intro m hm
    cases m with
    | zero => rfl
    | succ k =>
      have hk : k < t.length := by simp at hm; omega
      have hdrop : (a :: t).drop (k + 1) = t.drop k := rfl
      rw [hdrop, ih k hk]
      cases t with
      | nil => simp at hk
      | cons b t2 => rw [List.getLast?_cons_cons]


theorem bisectRight_eq_takeWhile (entries : List (KnapsackWeight × KnapsackItem))
    (qw : KnapsackWeight)
    (hs : entries.Pairwise (fun e1 e2 => weightLt e1.1 e2.1)) :
    bisectRightWeights entries qw =
      (entries.takeWhile (fun e => decide (¬ weightLt qw e.1))).length := by
  refine countP_eq_takeWhile_length _ (fun e1 e2 => weightLt e1.1 e2.1) ?_ entries hs
  intro a b hR hb
  rw [decide_eq_true_iff] at hb ⊢
  intro hqa
  exact hb (weightLt_trans hqa hR)

/-- C6 amended: on a frontier whose stored weight list is sorted (as every
frontier the program builds is), `best_for_cost` returns `None` — an absent
value, not an error and not an empty list — exactly when no stored weight is
at or under the query weight `(budget, modifier 1.0)`; when some stored weight
fits and `k ≥ 1` it returns a non-empty list of at most `k` stored candidates
whose weights fit, the highest-weight one first. -/
theorem C6_best_for_cost_amended (entries : List (KnapsackWeight × KnapsackItem))
    (cost : ℚ) (count : ℕ)
    (hsorted : (entries.map Prod.fst).Pairwise weightLt)
    (hkeys : ∀ e ∈ entries, e.2.weight = e.1) :
    ((∀ e ∈ entries, weightLt ⟨cost, 1⟩ e.1) → bestForCost entries cost count = none) ∧
    ((∃ e ∈ entries, ¬ weightLt ⟨cost, 1⟩ e.1) → 1 ≤ count →
      ∃ res : List KnapsackItem, bestForCost entries cost count = some res ∧
        res ≠ [] ∧ res.length ≤ count ∧
        (∀ x ∈ res, ¬ weightLt ⟨cost, 1⟩ x.weight) ∧
        ∃ h, res.head? = some h ∧
          ∀ e ∈ entries, ¬ weightLt ⟨cost, 1⟩ e.1 → ¬ weightLt h.weight e.1) := by
  have hpw : entries.Pairwise (fun e1 e2 => weightLt e1.1 e2.1) :=
    List.pairwise_map.mp hsorted
  have hbeq := bisectRight_eq_takeWhile entries ⟨cost, 1⟩ hpw
  constructor
  · intro hall
    have hzero : bisectRightWeights entries ⟨cost, 1⟩ = 0 := by
      unfold bisectRightWeights
      refine List.countP_eq_zero.mpr ?_
      intro e he
      simp only [decide_eq_true_iff]
      intro hc
      exact hc (hall e he)
    simp only [bestForCost]
    rw [hzero]
    rfl
  · intro hex hcount
    have hpos : 0 < bisectRightWeights entries ⟨cost, 1⟩ := by
      unfold bisectRightWeights
      refine List.countP_pos_iff.mpr ?_
      rcases hex with ⟨e, he, hfit⟩
      exact ⟨e, he, by simpa using hfit⟩
    set p : KnapsackWeight × KnapsackItem → Bool :=
      fun e => decide (¬ weightLt ⟨cost, 1⟩ e.1) with hp
    set tw := entries.takeWhile p with htw
    set n := bisectRightWeights entries ⟨cost, 1⟩ with hn
    have hlen : n = tw.length := hbeq
    have hne : n ≠ 0 := Nat.pos_iff_ne_zero.mp hpos
    have htake : entries.take n = tw := by
      rw [hlen]
      have hsplit : tw ++ entries.dropWhile p = entries :=
        List.takeWhile_append_dropWhile p entries
      conv_lhs => rw [← hsplit]
      exact List.take_left tw _
    have hres : bestForCost entries cost count =
        some (((tw.drop (n - count)).reverse).map Prod.snd) := by
      simp only [bestForCost]
      rw [← hn, if_neg hne, htake]
    set slice := tw.drop (n - count) with hslice
    have hslicelen : slice.length = n - (n - count) := by
      rw [hslice, List.length_drop, ← hlen]
    have hslice_ne : slice ≠ [] := by
      intro hc
      have := congrArg List.length hc
      rw [hslicelen] at this
      simp at this
      omega
    refine ⟨((slice.reverse).map Prod.snd), hres, ?_, ?_, ?_, ?_⟩
    · simp only [ne_eq, List.map_eq_nil_iff, List.reverse_eq_nil_iff]
      exact hslice_ne
    · rw [List.length_map, List.length_reverse, hslicelen]
      omega
    · intro x hx
      rw [List.mem_map] at hx
      rcases hx with ⟨e, he, hex2⟩
      rw [List.mem_reverse] at he
      have hetw : e ∈ tw := by
        rw [hslice] at he
        exact List.mem_of_mem_drop he
      have hpe : p e = true := List.mem_takeWhile_imp hetw
      rw [hp, decide_eq_true_iff] at hpe
      have hee : e ∈ entries := mem_of_mem_takeWhile p entries e hetw
      rw [← hex2, hkeys e hee]
      exact hpe
    · cases hlast : slice.getLast? with
      | none =>
        rw [List.getLast?_eq_none_iff] at hlast
        exact absurd hlast hslice_ne
      | some elast =>
        refine ⟨elast.2, ?_, ?_⟩
        · rw [List.head?_map, List.head?_reverse, hlast]
          rfl
        · have hlast_tw : tw.getLast? = some elast := by
            rw [hslice] at hlast
            rw [← getLast?_drop_eq tw (n - count) (by rw [← hlen]; omega)]
            exact hlast
          have hlast_mem_tw : elast ∈ tw := List.mem_of_getLast?_eq_some hlast_tw
          have hlast_mem : elast ∈ entries := mem_of_mem_takeWhile p entries elast hlast_mem_tw
          have hlw : elast.2.weight = elast.1 := hkeys elast hlast_mem
          have htw_pw : tw.Pairwise (fun e1 e2 => weightLt e1.1 e2.1) :=
            hpw.sublist (List.takeWhile_sublist p)
          intro e he hfit
          have hetw : e ∈ tw := by
            have hsplit : tw ++ entries.dropWhile p = entries :=
              List.takeWhile_append_dropWhile p entries
            rw [← hsplit] at he
            rcases List.mem_append.mp he with h1 | h1
            · exact h1
            · exfalso
              have := dropWhile_all_false p (fun e1 e2 => weightLt e1.1 e2.1)
                (by
                  intro a b hR hb
                  rw [decide_eq_true_iff] at hb ⊢
                  intro hqa
                  exact hb (weightLt_trans hqa hR)) entries hpw e h1
              rw [hp, decide_eq_false_iff_not] at this
              exact this hfit
          rcases pairwise_getLast_rel _ tw htw_pw elast hlast_tw e hetw with heq | hR
          · rw [heq, hlw]
            exact weightLt_irrefl _
          · rw [hlw]
            exact weightLt_asymm hR

/-- Witness for `C6_best_for_cost_amended`: the one-candidate frontier
(cost `5`) queried at budget `6` with `k = 1` yields a non-empty fitting
result. -/
theorem C6_best_for_cost_witness :
    ∃ res : List KnapsackItem,
      bestForCost (solutionEntries [⟨⟨5, 1⟩, 1, ["I"], []⟩] true) 6 1 = some res ∧
        res ≠ [] ∧ res.length ≤ 1 ∧
        (∀ x ∈ res, ¬ weightLt ⟨6, 1⟩ x.weight) ∧
        ∃ h, res.head? = some h ∧
          ∀ e ∈ solutionEntries [⟨⟨5, 1⟩, 1, ["I"], []⟩] true,
            ¬ weightLt ⟨6, 1⟩ e.1 → ¬ weightLt h.weight e.1 :=
  (C6_best_for_cost_amended (solutionEntries [⟨⟨5, 1⟩, 1, ["I"], []⟩] true) 6 1
      (by decide) (by decide)).2
    ⟨(⟨5, 1⟩, ⟨⟨5, 1⟩, 1, ["I"], []⟩), by decide, by decide⟩ (by decide)


theorem walkBack_map_fst (item : KnapsackItem) :
    ∀ l : List (ℚ × KnapsackItem), (walkBack item l).map Prod.fst = l.map Prod.fst := by
  intro l
  induction l with
  | nil => rfl
  | cons e rest ih =>
    obtain ⟨k, x⟩ := e
    simp only [walkBack]
    by_cases h : x.value < item.value
    · rw [if_pos h]
      simp only [List.map_cons]
      rw [ih]
    · rw [if_neg h]

theorem walkBack_mem (item : KnapsackItem) :
    ∀ l : List (ℚ × KnapsackItem),
      l.Pairwise (fun e1 e2 => e1.2.value ≤ e2.2.value) →
      ∀ e ∈ walkBack item l,
        (∃ e0 ∈ l, e.1 = e0.1 ∧ e.2 = item ∧ e0.2.value < item.value) ∨
          (e ∈ l ∧ item.value ≤ e.2.value) := by
  intro l
  induction l with
  | nil => intro _ e he; simp [walkBack] at he
  | cons e0 rest ih =>
    intro hp e he
    obtain ⟨k, x⟩ := e0
    have hhead : ∀ y ∈ rest, x.value ≤ y.2.value := by
      intro y hy
      exact (List.pairwise_cons.mp hp).1 y hy
    have htail := (List.pairwise_cons.mp hp).2
    simp only [walkBack] at he
    by_cases h : x.value < item.value
    · rw [if_pos h] at he
      rcases List.mem_cons.mp he with he | he
      · left
        exact ⟨(k, x), List.mem_cons_self _ _, by rw [he], by rw [he], h⟩
      · rcases ih htail e he with hcase | hcase
        · left
          rcases hcase with ⟨ee, hee, h1, h2, h3⟩
          exact ⟨ee, List.mem_cons_of_mem _ hee, h1, h2, h3⟩
        · right
          exact ⟨List.mem_cons_of_mem _ hcase.1, hcase.2⟩
    · rw [if_neg h] at he
      right
      rcases List.mem_cons.mp he with he | he
      · rw [he]
        exact ⟨List.mem_cons_self _ _, le_of_not_lt h⟩
      · refine ⟨List.mem_cons_of_mem _ he, ?_⟩
        have hx : item.value ≤ x.value := le_of_not_lt h
        exact le_trans hx (hhead e he)

theorem dropWhile_head_false {α : Type} (p : α → Bool) :
    ∀ (l : List α) (e : α) (tl : List α), l.dropWhile p = e :: tl → p e = false := by
  intro l
  induction l with
  | nil => intro e tl h; cases h
  | cons a t ih =>
    intro e tl h
    simp only [List.dropWhile] at h
    cases hpa : p a with
    | true =>
      rw [hpa] at h
      exact ih e tl h
    | false =>
      rw [hpa] at h
      injection h with h1 h2
      rw [← h1]
      exact hpa


theorem frontierAdd_of_dropWhile_nil (f : List (ℚ × KnapsackItem)) (item : KnapsackItem)
    (h : f.dropWhile (fun e => decide (e.1 < item.weight.modifier)) = []) :
    frontierAdd f item =
      (walkBack item
          (f.takeWhile (fun e => decide (e.1 < item.weight.modifier))).reverse).reverse
        ++ [(item.weight.modifier, item)] := by
  simp only [frontierAdd]
  rw [h]

theorem frontierAdd_of_dropWhile_key_nil (f : List (ℚ × KnapsackItem)) (item : KnapsackItem)
    (k0 : ℚ) (cur : KnapsackItem)
    (h : f.dropWhile (fun e => decide (e.1 < item.weight.modifier)) = [(k0, cur)])
    (hk : k0 = item.weight.modifier) :
    frontierAdd f item =
      (walkBack item
          (f.takeWhile (fun e => decide (e.1 < item.weight.modifier))).reverse).reverse
        ++ [(item.weight.modifier, if cur.value < item.value then item else cur)] := by
  simp only [frontierAdd]
  rw [h]
  simp only [if_pos hk]

theorem frontierAdd_of_dropWhile_key_cons (f : List (ℚ × KnapsackItem)) (item : KnapsackItem)
    (k0 : ℚ) (cur : KnapsackItem) (k1 : ℚ) (nxt : KnapsackItem)
    (tl2 : List (ℚ × KnapsackItem))
    (h : f.dropWhile (fun e => decide (e.1 < item.weight.modifier)) =
      (k0, cur) :: (k1, nxt) :: tl2)
    (hk : k0 = item.weight.modifier) :
    frontierAdd f item =
      (walkBack item
          (f.takeWhile (fun e => decide (e.1 < item.weight.modifier))).reverse).reverse
        ++ (item.weight.modifier,
            if item.value < nxt.value then nxt
            else if cur.value < item.value then item else cur) :: (k1, nxt) :: tl2 := by
  simp only [frontierAdd]
  rw [h]
  simp only [if_pos hk]

theorem frontierAdd_of_dropWhile_insert (f : List (ℚ × KnapsackItem)) (item : KnapsackItem)
    (k0 : ℚ) (cur : KnapsackItem) (tl : List (ℚ × KnapsackItem))
    (h : f.dropWhile (fun e => decide (e.1 < item.weight.modifier)) = (k0, cur) :: tl)
    (hk : ¬ k0 = item.weight.modifier) :
    frontierAdd f item =
      (walkBack item
          (f.takeWhile (fun e => decide (e.1 < item.weight.modifier))).reverse).reverse
        ++ (item.weight.modifier,
            if item.value < cur.value then cur else item) :: ((k0, cur) :: tl) := by
  simp only [frontierAdd]
  rw [h]
  simp only [if_neg hk]

theorem frontierInv_assemble (P : KnapsackItem → Prop) (item : KnapsackItem)
    (pre2 : List (ℚ × KnapsackItem)) (A : KnapsackItem) (restl : List (ℚ × KnapsackItem))
    (hQpre2 : ∀ e ∈ pre2, (e.2 = item ∨ P e.2) ∧ e.1 ≤ e.2.weight.modifier ∧
      ∀ a, (a = item ∨ P a) → e.1 ≤ a.weight.modifier → a.value ≤ e.2.value)
    (hpre2keys : ∀ k ∈ pre2.map Prod.fst, k < item.weight.modifier)
    (hpre2pw : (pre2.map Prod.fst).Pairwise (· < ·))
    (hAmod : item.weight.modifier ≤ A.weight.modifier)
    (hAP : A = item ∨ P A)
    (hAmax : ∀ a, (a = item ∨ P a) → item.weight.modifier ≤ a.weight.modifier →
      a.value ≤ A.value)
    (hrest : ∀ e ∈ restl, P e.2 ∧ e.1 ≤ e.2.weight.modifier ∧
      ∀ a, P a → e.1 ≤ a.weight.modifier → a.value ≤ e.2.value)
    (hrestkeys : ∀ k ∈ restl.map Prod.fst, item.weight.modifier < k)
    (hrestpw : (restl.map Prod.fst).Pairwise (· < ·))
    (hkeysiff : ∀ k : ℚ,
      (k ∈ pre2.map Prod.fst ∨ k = item.weight.modifier ∨ k ∈ restl.map Prod.fst) ↔
        ∃ a, (a = item ∨ P a) ∧ a.weight.modifier = k) :
    FrontierInv (pre2 ++ (item.weight.modifier, A) :: restl) (fun x => x = item ∨ P x) := by
  refine ⟨?_, ?_, ?_⟩
  · rw [List.map_append, List.map_cons]
    rw [List.pairwise_append]
    refine ⟨hpre2pw, ?_, ?_⟩
    · rw [List.pairwise_cons]
      exact ⟨fun k hk => hrestkeys k hk, hrestpw⟩
    · intro x hx y hy
      rcases List.mem_cons.mp hy with hy | hy
      · rw [hy]
        exact hpre2keys x hx
      · exact lt_trans (hpre2keys x hx) (hrestkeys y hy)
  · intro k
    rw [List.map_append, List.map_cons, List.mem_append, List.mem_cons]
    exact hkeysiff k
  · intro e he
    rcases List.mem_append.mp he with he | he
    · exact hQpre2 e he
    · rcases List.mem_cons.mp he with he | he
      · rw [he]
        exact ⟨hAP, hAmod, hAmax⟩
      · obtain ⟨hP, hb, hmax⟩ := hrest e he
        refine ⟨Or.inr hP, hb, ?_⟩
        intro a ha hle
        rcases ha with ha | ha
        · exfalso
          have hgt : item.weight.modifier < e.1 :=
            hrestkeys e.1 (List.mem_map.mpr ⟨e, he, rfl⟩)
          rw [ha] at hle
          exact absurd hle (not_le.mpr hgt)
        · exact hmax a ha hle


set_option maxHeartbeats 1600000 in
theorem frontierInv_add (f : List (ℚ × KnapsackItem)) (P : KnapsackItem → Prop)
    (item : KnapsackItem) (hinv : FrontierInv f P) (hok : addOk f item = true) :
    FrontierInv (frontierAdd f item) (fun x => x = item ∨ P x) := by
  obtain ⟨hs, hkeys, hent⟩ := hinv
  have hsplit : f.takeWhile (fun e => decide (e.1 < item.weight.modifier)) ++ f.dropWhile (fun e => decide (e.1 < item.weight.modifier)) = f :=
    List.takeWhile_append_dropWhile (fun e => decide (e.1 < item.weight.modifier)) f
  have hfpw : f.Pairwise (fun e1 e2 => e1.1 < e2.1) := List.pairwise_map.mp hs
  have hanti : f.Pairwise (fun e1 e2 => e2.2.value ≤ e1.2.value) := by
    refine List.Pairwise.imp_of_mem ?_ hfpw
    intro e1 e2 h1 h2 hR
    obtain ⟨hP1, hb1, hmax1⟩ := hent e1 h1
    obtain ⟨hP2, hb2, hmax2⟩ := hent e2 h2
    exact hmax1 e2.2 hP2 (le_trans (le_of_lt hR) hb2)
  have hprelt : ∀ e ∈ (f.takeWhile (fun e => decide (e.1 < item.weight.modifier))), e.1 < item.weight.modifier := by
    intro e he
    have := List.mem_takeWhile_imp he
    simpa using this
  have hpremem : ∀ e ∈ (f.takeWhile (fun e => decide (e.1 < item.weight.modifier))), e ∈ f := fun e he => mem_of_mem_takeWhile _ f e he
  have hpresub : (f.takeWhile (fun e => decide (e.1 < item.weight.modifier))).Sublist f := List.takeWhile_sublist _
  have hpre2mapfst : ((walkBack item (f.takeWhile (fun e => decide (e.1 < item.weight.modifier))).reverse).reverse).map Prod.fst = (f.takeWhile (fun e => decide (e.1 < item.weight.modifier))).map Prod.fst := by
    rw [List.map_reverse, walkBack_map_fst, List.map_reverse, List.reverse_reverse]
  have hpre2keys : ∀ k ∈ ((walkBack item (f.takeWhile (fun e => decide (e.1 < item.weight.modifier))).reverse).reverse).map Prod.fst, k < item.weight.modifier := by
    rw [hpre2mapfst]
    intro k hk
    rcases List.mem_map.mp hk with ⟨e, he, hek⟩
    rw [← hek]
    exact hprelt e he
  have hpre2pw : (((walkBack item (f.takeWhile (fun e => decide (e.1 < item.weight.modifier))).reverse).reverse).map Prod.fst).Pairwise (· < ·) := by
    rw [hpre2mapfst]
    exact hs.sublist (hpresub.map Prod.fst)
  have hrevanti : ((f.takeWhile (fun e => decide (e.1 < item.weight.modifier))).reverse).Pairwise (fun e1 e2 => e1.2.value ≤ e2.2.value) := by
    rw [List.pairwise_reverse]
    exact hanti.sublist hpresub
  have hpre2Q : ∀ e ∈ ((walkBack item (f.takeWhile (fun e => decide (e.1 < item.weight.modifier))).reverse).reverse),
      (e.2 = item ∨ P e.2) ∧ e.1 ≤ e.2.weight.modifier ∧
        ∀ a, (a = item ∨ P a) → e.1 ≤ a.weight.modifier → a.value ≤ e.2.value := by
    intro e he
    rw [List.mem_reverse] at he
    rcases walkBack_mem item _ hrevanti e he with ⟨e0, he0, h1, h2, h3⟩ | ⟨hein, hv⟩
    · rw [List.mem_reverse] at he0
      obtain ⟨hP0, hb0, hmax0⟩ := hent e0 (hpremem e0 he0)
      refine ⟨Or.inl h2, ?_, ?_⟩
      · rw [h1, h2]
        exact le_of_lt (hprelt e0 he0)
      · intro a ha hle
        rw [h2]
        rcases ha with ha | ha
        · rw [ha]
        · rw [h1] at hle
          exact le_of_lt (lt_of_le_of_lt (hmax0 a ha hle) h3)
    · rw [List.mem_reverse] at hein
      obtain ⟨hP0, hb0, hmax0⟩ := hent e (hpremem e hein)
      refine ⟨Or.inr hP0, hb0, ?_⟩
      intro a ha hle
      rcases ha with ha | ha
      · rw [ha]
        exact hv
      · exact hmax0 a ha hle
  have hPkey : ∀ a, P a → a.weight.modifier ∈ f.map Prod.fst :=
    fun a hPa => (hkeys _).mpr ⟨a, hPa, rfl⟩
  have hfkeysplit : (f.takeWhile (fun e => decide (e.1 < item.weight.modifier))).map Prod.fst ++ (f.dropWhile (fun e => decide (e.1 < item.weight.modifier))).map Prod.fst =
      f.map Prod.fst := by
    rw [← List.map_append, hsplit]
  cases hpost : f.dropWhile (fun e => decide (e.1 < item.weight.modifier)) with
  | nil =>
    rw [frontierAdd_of_dropWhile_nil f item hpost]
    have hfeqpre : f.map Prod.fst = (f.takeWhile (fun e => decide (e.1 < item.weight.modifier))).map Prod.fst := by
      rw [← hfkeysplit, hpost]
      simp
    refine frontierInv_assemble P item _ item [] hpre2Q hpre2keys hpre2pw
      (le_refl _) (Or.inl rfl) ?_ (by intro e he; cases he) (by intro k hk; cases hk)
      List.Pairwise.nil ?_
    · intro a ha hle
      rcases ha with ha | ha
      · rw [ha]
      · exfalso
        have hmem := hPkey a ha
        rw [hfeqpre] at hmem
        rcases List.mem_map.mp hmem with ⟨e, he, hek⟩
        have := hprelt e he
        rw [hek] at this
        exact absurd hle (not_le.mpr this)
    · intro k
      rw [hpre2mapfst]
      constructor
      · intro hcase
        rcases hcase with hcase | hcase | hcase
        · have hkf : k ∈ f.map Prod.fst := by rw [hfeqpre]; exact hcase
          rcases (hkeys k).mp hkf with ⟨a, hPa, hak⟩
          exact ⟨a, Or.inr hPa, hak⟩
        · exact ⟨item, Or.inl rfl, hcase.symm⟩
        · cases hcase
      · intro hcase
        rcases hcase with ⟨a, ha, hak⟩
        rcases ha with ha | ha
        · right; left
          rw [← hak, ha]
        · left
          have hkf := hPkey a ha
          rw [hak] at hkf
          rw [← hfeqpre]
          exact hkf
  | cons e0 tl =>
    obtain ⟨k0, cur⟩ := e0
    have hcurf : (k0, cur) ∈ f := by
      rw [← hsplit, hpost]
      exact List.mem_append.mpr (Or.inr (List.mem_cons_self _ _))
    obtain ⟨hPcur, hbcur, hmaxcur⟩ := hent (k0, cur) hcurf
    have hk0ge : ¬ k0 < item.weight.modifier := by
      have := dropWhile_head_false (fun e => decide (e.1 < item.weight.modifier)) f (k0, cur) tl hpost
      simpa using this
    have hlkup : frontierLookup f item.weight.modifier = some cur := by
      simp only [frontierLookup]
      rw [hpost]
    have hcurv : cur.value ≤ item.value := by
      unfold addOk at hok
      rw [hlkup] at hok
      simpa using hok
    have hpostpw : ((k0, cur) :: tl).Pairwise (fun e1 e2 => e1.1 < e2.1) := by
      rw [← hpost]
      exact hfpw.sublist (List.dropWhile_sublist _)
    have htlmem : ∀ e ∈ tl, e ∈ f := by
      intro e he
      rw [← hsplit, hpost]
      exact List.mem_append.mpr (Or.inr (List.mem_cons_of_mem _ he))
    have htlgt : ∀ k ∈ tl.map Prod.fst, k0 < k := by
      intro k hk
      rcases List.mem_map.mp hk with ⟨e, he, hek⟩
      rw [← hek]
      exact (List.pairwise_cons.mp hpostpw).1 e he
    have hrestent : ∀ e ∈ tl, P e.2 ∧ e.1 ≤ e.2.weight.modifier ∧
        ∀ a, P a → e.1 ≤ a.weight.modifier → a.value ≤ e.2.value :=
      fun e he => hent e (htlmem e he)
    have htlpw : (tl.map Prod.fst).Pairwise (· < ·) := by
      have : ((k0, cur) :: tl).Pairwise (fun e1 e2 => e1.1 < e2.1) := hpostpw
      have h2 := (List.pairwise_cons.mp this).2
      exact List.pairwise_map.mpr h2
    by_cases hk : k0 = item.weight.modifier
    · -- the key is already present
      have hAmod0 : item.weight.modifier ≤ cur.weight.modifier := by
        rw [← hk]
        exact hbcur
      have hAmax0 : ∀ a, (a = item ∨ P a) → item.weight.modifier ≤ a.weight.modifier →
          a.value ≤ (if cur.value < item.value then item else cur).value := by
        intro a ha hle
        by_cases hcv : cur.value < item.value
        · rw [if_pos hcv]
          rcases ha with ha | ha
          · rw [ha]
          · exact le_of_lt (lt_of_le_of_lt (hmaxcur a ha (by rw [hk]; exact hle)) hcv)
        · rw [if_neg hcv]
          rcases ha with ha | ha
          · rw [ha]
            exact le_of_not_lt hcv
          · exact hmaxcur a ha (by rw [hk]; exact hle)
      have hAP0 : (if cur.value < item.value then item else cur) = item ∨
          P (if cur.value < item.value then item else cur) := by
        by_cases hcv : cur.value < item.value
        · rw [if_pos hcv]
          exact Or.inl rfl
        · rw [if_neg hcv]
          exact Or.inr hPcur
      have hAmod1 : item.weight.modifier ≤
          (if cur.value < item.value then item else cur).weight.modifier := by
        by_cases hcv : cur.value < item.value
        · rw [if_pos hcv]
        · rw [if_neg hcv]
          exact hAmod0
      have hkeysiff0 : ∀ k : ℚ,
          (k ∈ ((walkBack item (f.takeWhile (fun e => decide (e.1 < item.weight.modifier))).reverse).reverse).map Prod.fst ∨ k = item.weight.modifier ∨ k ∈ tl.map Prod.fst) ↔
            ∃ a, (a = item ∨ P a) ∧ a.weight.modifier = k := by
        intro k
        have hfk : f.map Prod.fst =
            (f.takeWhile (fun e => decide (e.1 < item.weight.modifier))).map Prod.fst ++ k0 :: tl.map Prod.fst := by
          rw [← hfkeysplit, hpost]
          rfl
        rw [hpre2mapfst]
        constructor
        · intro hcase
          have hkf : k ∈ f.map Prod.fst := by
            rw [hfk]
            rcases hcase with hcase | hcase | hcase
            · exact List.mem_append.mpr (Or.inl hcase)
            · refine List.mem_append.mpr (Or.inr ?_)
              rw [hcase, ← hk]
              exact List.mem_cons_self _ _
            · exact List.mem_append.mpr (Or.inr (List.mem_cons_of_mem _ hcase))
          rcases (hkeys k).mp hkf with ⟨a, hPa, hak⟩
          exact ⟨a, Or.inr hPa, hak⟩
        · intro hcase
          rcases hcase with ⟨a, ha, hak⟩
          rcases ha with ha | ha
          · right; left
            rw [← hak, ha]
          · have hkf := hPkey a ha
            rw [hak, hfk] at hkf
            rcases List.mem_append.mp hkf with hkf | hkf
            · exact Or.inl hkf
            · rcases List.mem_cons.mp hkf with hkf | hkf
              · right; left
                rw [hkf, hk]
              · right; right
                exact hkf
      cases htl : tl with
      | nil =>
        rw [htl] at hpost
        rw [frontierAdd_of_dropWhile_key_nil f item k0 cur hpost hk]
        refine frontierInv_assemble P item _ _ [] hpre2Q hpre2keys hpre2pw
          hAmod1 hAP0 hAmax0 (by intro e he; cases he) (by intro k hk2; cases hk2)
          List.Pairwise.nil ?_
        have := hkeysiff0
        rw [htl] at this
        simpa using this
      | cons e1 tl2 =>
        obtain ⟨k1, nxt⟩ := e1
        rw [htl] at hpost
        have hnxtf : (k1, nxt) ∈ f := htlmem (k1, nxt) (by rw [htl]; exact List.mem_cons_self _ _)
        obtain ⟨hPnxt, hbnxt, hmaxnxt⟩ := hent (k1, nxt) hnxtf
        have hk01 : k0 < k1 := by
          refine htlgt k1 ?_
          rw [htl]
          exact List.mem_map.mpr ⟨(k1, nxt), List.mem_cons_self _ _, rfl⟩
        have hnxtval : nxt.value ≤ cur.value :=
          hmaxcur nxt hPnxt (le_trans (le_of_lt hk01) hbnxt)
        have hnotnxt : ¬ item.value < nxt.value :=
          not_lt.mpr (le_trans hnxtval hcurv)
        rw [frontierAdd_of_dropWhile_key_cons f item k0 cur k1 nxt tl2 hpost hk]
        rw [if_neg hnotnxt]
        refine frontierInv_assemble P item _ _ ((k1, nxt) :: tl2) hpre2Q hpre2keys hpre2pw
          hAmod1 hAP0 hAmax0 ?_ ?_ ?_ ?_
        · intro e he
          refine hrestent e ?_
          rw [htl]
          exact he
        · intro k hk2
          have hgt : k0 < k := by
            refine htlgt k ?_
            rw [htl]
            exact hk2
          rw [← hk]
          exact hgt
        · have := htlpw
          rw [htl] at this
          exact this
        · have := hkeysiff0
          rw [htl] at this
          exact this
    · -- a fresh key is inserted
      have hkgt : item.weight.modifier < k0 := by
        rcases lt_trichotomy k0 item.weight.modifier with hlt | heq | hgt
        · exact absurd hlt hk0ge
        · exact absurd heq hk
        · exact hgt
      have hnotcur : ¬ item.value < cur.value := not_lt.mpr hcurv
      rw [frontierAdd_of_dropWhile_insert f item k0 cur tl hpost hk]
      rw [if_neg hnotcur]
      have hpostge : ∀ k ∈ ((k0, cur) :: tl).map Prod.fst, k0 ≤ k := by
        intro k hk2
        rcases List.mem_cons.mp hk2 with hk2 | hk2
        · rw [hk2]
        · exact le_of_lt (htlgt k hk2)
      refine frontierInv_assemble P item _ item ((k0, cur) :: tl) hpre2Q hpre2keys hpre2pw
        (le_refl _) (Or.inl rfl) ?_ ?_ ?_ ?_ ?_
      · intro a ha hle
        rcases ha with ha | ha
        · rw [ha]
        · have hmem := hPkey a ha
          rw [← hfkeysplit, hpost] at hmem
          rcases List.mem_append.mp hmem with hmem | hmem
          · exfalso
            rcases List.mem_map.mp hmem with ⟨e, he, hek⟩
            have := hprelt e he
            rw [hek] at this
            exact absurd hle (not_le.mpr this)
          · have hge : k0 ≤ a.weight.modifier := hpostge _ hmem
            exact le_trans (hmaxcur a ha hge) (le_refl _) |>.trans hcurv
      · intro e he
        rcases List.mem_cons.mp he with he | he
        · rw [he]
          exact ⟨hPcur, hbcur, hmaxcur⟩
        · exact hrestent e he
      · intro k hk2
        rcases List.mem_cons.mp hk2 with hk2 | hk2
        · rw [hk2]
          exact hkgt
        · exact lt_trans hkgt (htlgt k hk2)
      · rw [List.map_cons]
        rw [List.pairwise_cons]
        exact ⟨fun k hk2 => htlgt k hk2, htlpw⟩
      · intro k
        rw [hpre2mapfst]
        have hfk : f.map Prod.fst = (f.takeWhile (fun e => decide (e.1 < item.weight.modifier))).map Prod.fst ++ k0 :: tl.map Prod.fst := by
          rw [← hfkeysplit, hpost]
          rfl
        constructor
        · intro hcase
          rcases hcase with hcase | hcase | hcase
          · have hkf : k ∈ f.map Prod.fst := by
              rw [hfk]
              exact List.mem_append.mpr (Or.inl hcase)
            rcases (hkeys k).mp hkf with ⟨a, hPa, hak⟩
            exact ⟨a, Or.inr hPa, hak⟩
          · exact ⟨item, Or.inl rfl, hcase.symm⟩
          · have hkf : k ∈ f.map Prod.fst := by
              rw [hfk]
              refine List.mem_append.mpr (Or.inr ?_)
              rw [List.map_cons] at hcase
              exact hcase
            rcases (hkeys k).mp hkf with ⟨a, hPa, hak⟩
            exact ⟨a, Or.inr hPa, hak⟩
        · intro hcase
          rcases hcase with ⟨a, ha, hak⟩
          rcases ha with ha | ha
          · right; left
            rw [← hak, ha]
          · have hkf := hPkey a ha
            rw [hak, hfk] at hkf
            rcases List.mem_append.mp hkf with hkf | hkf
            · exact Or.inl hkf
            · right; right
              rw [List.map_cons]
              exact hkf


theorem frontierInv_congr (f : List (ℚ × KnapsackItem)) (P Q : KnapsackItem → Prop)
    (h : ∀ x, P x ↔ Q x) (hinv : FrontierInv f P) : FrontierInv f Q := by
  obtain ⟨hs, hkeys, hent⟩ := hinv
  refine ⟨hs, ?_, ?_⟩
  · intro k
    rw [hkeys k]
    constructor
    · rintro ⟨a, hPa, hak⟩
      exact ⟨a, (h a).mp hPa, hak⟩
    · rintro ⟨a, hQa, hak⟩
      exact ⟨a, (h a).mpr hQa, hak⟩
  · intro e he
    obtain ⟨hP, hb, hmax⟩ := hent e he
    exact ⟨(h _).mp hP, hb, fun a hQa hle => hmax a ((h a).mpr hQa) hle⟩

theorem frontierInv_fold : ∀ (rest : List KnapsackItem) (f : List (ℚ × KnapsackItem))
    (P : KnapsackItem → Prop), FrontierInv f P → goodFrom f rest →
    FrontierInv (rest.foldl frontierAdd f) (fun x => x ∈ rest ∨ P x) := by
  intro rest
  induction rest with
  | nil =>
    intro f P hinv _
    exact frontierInv_congr f P _ (by simp) hinv
  | cons a t ih =>
    intro f P hinv hgood
    obtain ⟨hok, hrestg⟩ := hgood
    have h1 := frontierInv_add f P a hinv hok
    have h2 := ih (frontierAdd f a) (fun x => x = a ∨ P x) h1 hrestg
    refine frontierInv_congr _ _ _ ?_ h2
    intro x
    simp only [List.mem_cons]
    tauto

theorem frontierInv_lookup (f : List (ℚ × KnapsackItem)) (P : KnapsackItem → Prop)
    (hinv : FrontierInv f P) (m : ℚ)
    (hex : ∃ a, P a ∧ m ≤ a.weight.modifier) :
    ∃ r, frontierLookup f m = some r ∧ m ≤ r.weight.modifier ∧ P r ∧
      ∀ a, P a → m ≤ a.weight.modifier → a.value ≤ r.value := by
  obtain ⟨hs, hkeys, hent⟩ := hinv
  obtain ⟨a0, hPa0, hm0⟩ := hex
  have hfpw : f.Pairwise (fun e1 e2 => e1.1 < e2.1) := List.pairwise_map.mp hs
  cases hd : f.dropWhile (fun e => decide (e.1 < m)) with
  | nil =>
    exfalso
    have hall := List.dropWhile_eq_nil_iff.mp hd
    have hk0 : a0.weight.modifier ∈ f.map Prod.fst := (hkeys _).mpr ⟨a0, hPa0, rfl⟩
    rcases List.mem_map.mp hk0 with ⟨e, he, hek⟩
    have hlt := hall e he
    rw [decide_eq_true_iff] at hlt
    rw [hek] at hlt
    exact absurd hm0 (not_le.mpr hlt)
  | cons e0 tail0 =>
    have hlk : frontierLookup f m = some e0.2 := by
      simp only [frontierLookup]
      rw [hd]
    have he0f : e0 ∈ f :=
      (List.dropWhile_sublist _).subset (by rw [hd]; exact List.mem_cons_self _ _)
    have hne0 : ¬ e0.1 < m := by
      have := dropWhile_head_false _ f e0 tail0 hd
      simpa using this
    obtain ⟨hP0, hb0, hmax0⟩ := hent e0 he0f
    refine ⟨e0.2, hlk, le_trans (le_of_not_lt hne0) hb0, hP0, ?_⟩
    intro a hPa hma
    have hka : a.weight.modifier ∈ f.map Prod.fst := (hkeys _).mpr ⟨a, hPa, rfl⟩
    rcases List.mem_map.mp hka with ⟨e, he, hek⟩
    have hsplit : f.takeWhile (fun e => decide (e.1 < m)) ++
        f.dropWhile (fun e => decide (e.1 < m)) = f :=
      List.takeWhile_append_dropWhile _ f
    have hein : e ∈ f.takeWhile (fun e => decide (e.1 < m)) ∨
        e ∈ f.dropWhile (fun e => decide (e.1 < m)) := by
      refine List.mem_append.mp ?_
      rw [hsplit]
      exact he
    rcases hein with hein | hein
    · exfalso
      have hlt := List.mem_takeWhile_imp hein
      rw [decide_eq_true_iff] at hlt
      rw [hek] at hlt
      exact absurd hma (not_le.mpr hlt)
    · rw [hd] at hein
      rcases List.mem_cons.mp hein with hein | hein
      · refine hmax0 a hPa ?_
        rw [← hek, hein]
      · have hdw_pw := hfpw.sublist (List.dropWhile_sublist
          (fun e => decide (e.1 < m)))
        rw [hd] at hdw_pw
        have hlt := (List.pairwise_cons.mp hdw_pw).1 e hein
        refine hmax0 a hPa ?_
        rw [← hek]
        exact le_of_lt hlt

/-- C1 amended: for every add sequence in which each added candidate's value is
at least the value `lookup` reports at its modifier just before the add — as is
the case for every add the reduction scan performs, since a candidate whose
value is below its possible dominator's is never added — `lookup(m)` returns an
added candidate with modifier `≥ m` whose value is the maximum value among all
added candidates with modifier `≥ m`.  Since every prefix of such a sequence is
again such a sequence, the property holds after every individual add. -/
theorem C1_lookup_max_of_good_adds (adds : List KnapsackItem) (m : ℚ)
    (hgood : goodAdds adds) (hex : ∃ a ∈ adds, m ≤ a.weight.modifier) :
    ∃ r, frontierLookup (frontierOfAdds adds) m = some r ∧
      m ≤ r.weight.modifier ∧ r ∈ adds ∧
      ∀ a ∈ adds, m ≤ a.weight.modifier → a.value ≤ r.value := by
  have hnil : FrontierInv [] (fun _ : KnapsackItem => False) := by
    refine ⟨List.Pairwise.nil, ?_, ?_⟩
    · intro k
      constructor
      · intro hk
        cases hk
      · rintro ⟨a, ha, _⟩
        cases ha
    · intro e he
      cases he
  have hfold := frontierInv_fold adds [] (fun _ => False) hnil hgood
  have hinv : FrontierInv (frontierOfAdds adds) (fun x => x ∈ adds) := by
    refine frontierInv_congr _ _ _ ?_ hfold
    intro x
    simp
  rcases hex with ⟨a0, ha0, hm0⟩
  rcases frontierInv_lookup (frontierOfAdds adds) _ hinv m ⟨a0, ha0, hm0⟩ with
    ⟨r, h1, h2, h3, h4⟩
  exact ⟨r, h1, h2, h3, fun a ha hma => h4 a ha hma⟩

/-- Witness for `C1_lookup_max_of_good_adds`: adds `X (modifier 1, value 10)`
then `Y (modifier 2, value 7)` — a well-behaved sequence — and queries `m = 1`;
the lookup returns `X`, the maximum over modifiers `≥ 1`. -/
theorem C1_lookup_max_witness :
    goodAdds [⟨⟨0, 1⟩, 10, ["X"], []⟩, ⟨⟨0, 2⟩, 7, ["Y"], []⟩] ∧
    (∃ a ∈ [(⟨⟨0, 1⟩, 10, ["X"], []⟩ : KnapsackItem), ⟨⟨0, 2⟩, 7, ["Y"], []⟩],
      (1 : ℚ) ≤ a.weight.modifier) ∧
    ∃ r, frontierLookup
        (frontierOfAdds [⟨⟨0, 1⟩, 10, ["X"], []⟩, ⟨⟨0, 2⟩, 7, ["Y"], []⟩]) 1 = some r ∧
      (1 : ℚ) ≤ r.weight.modifier ∧
      r ∈ [(⟨⟨0, 1⟩, 10, ["X"], []⟩ : KnapsackItem), ⟨⟨0, 2⟩, 7, ["Y"], []⟩] ∧
      ∀ a ∈ [(⟨⟨0, 1⟩, 10, ["X"], []⟩ : KnapsackItem), ⟨⟨0, 2⟩, 7, ["Y"], []⟩],
        (1 : ℚ) ≤ a.weight.modifier → a.value ≤ r.value :=
  ⟨by decide, by decide,
    C1_lookup_max_of_good_adds [⟨⟨0, 1⟩, 10, ["X"], []⟩, ⟨⟨0, 2⟩, 7, ["Y"], []⟩] 1
      (by decide) (by decide)⟩


theorem addAlternative_weight (x : KnapsackItem) (n : List String) :
    (addAlternative x n).weight = x.weight := by
  unfold addAlternative
  split <;> rfl

theorem addAlternative_value (x : KnapsackItem) (n : List String) :
    (addAlternative x n).value = x.value := by
  unfold addAlternative
  split <;> rfl

theorem mergeAltAt_map_wv (n : List String) :
    ∀ (l : List KnapsackItem) (i : ℕ),
      (mergeAltAt l i n).map (fun x => (x.weight, x.value)) =
        l.map (fun x => (x.weight, x.value)) := by
  intro l
  induction l with
  | nil => intro i; rfl
  | cons a t ih =>
    intro i
    cases i with
    | zero =>
      simp only [mergeAltAt, List.map_cons]
      rw [addAlternative_weight, addAlternative_value]
    | succ j =>
      simp only [mergeAltAt, List.map_cons]
      rw [ih j]

theorem mergeAltAt_mem_wv (n : List String) (l : List KnapsackItem) (i : ℕ) :
    ∀ x ∈ mergeAltAt l i n, ∃ y ∈ l, y.weight = x.weight ∧ y.value = x.value := by
  intro x hx
  have hmap := mergeAltAt_map_wv n l i
  have hin : (x.weight, x.value) ∈ l.map (fun x => (x.weight, x.value)) := by
    rw [← hmap]
    exact List.mem_map.mpr ⟨x, hx, rfl⟩
  rcases List.mem_map.mp hin with ⟨y, hy, hyx⟩
  refine ⟨y, hy, ?_, ?_⟩
  · exact congrArg Prod.fst hyx
  · exact congrArg Prod.snd hyx

theorem mergeAltAt_mem_wv_rev (n : List String) (l : List KnapsackItem) (i : ℕ) :
    ∀ x ∈ l, ∃ y ∈ mergeAltAt l i n, y.weight = x.weight ∧ y.value = x.value := by
  intro x hx
  have hmap := mergeAltAt_map_wv n l i
  have hin : (x.weight, x.value) ∈ (mergeAltAt l i n).map (fun x => (x.weight, x.value)) := by
    rw [hmap]
    exact List.mem_map.mpr ⟨x, hx, rfl⟩
  rcases List.mem_map.mp hin with ⟨y, hy, hyx⟩
  refine ⟨y, hy, ?_, ?_⟩
  · exact congrArg Prod.fst hyx
  · exact congrArg Prod.snd hyx

theorem mergeAltAt_pairwise (n : List String) (l : List KnapsackItem) (i : ℕ)
    (h : l.Pairwise scanOrder) : (mergeAltAt l i n).Pairwise scanOrder := by
  have hmap := mergeAltAt_map_wv n l i
  have h1 : (l.map (fun x => (x.weight, x.value))).Pairwise
      (fun p q => p.1.cost < q.1.cost ∧ p.2 < q.2) := by
    rw [List.pairwise_map]
    exact h
  have h2 : ((mergeAltAt l i n).map (fun x => (x.weight, x.value))).Pairwise
      (fun p q => p.1.cost < q.1.cost ∧ p.2 < q.2) := by
    rw [hmap]
    exact h1
  rw [List.pairwise_map] at h2
  exact h2

theorem mergeAltAt_ne_nil (n : List String) (l : List KnapsackItem) (i : ℕ)
    (h : l ≠ []) : mergeAltAt l i n ≠ [] := by
  intro hc
  have hmap := mergeAltAt_map_wv n l i
  rw [hc] at hmap
  have := congrArg List.length hmap
  simp at this
  exact h (List.eq_nil_of_length_eq_zero this.symm)

theorem pairwise_value_unique (l : List KnapsackItem) (h : l.Pairwise scanOrder) :
    ∀ x ∈ l, ∀ y ∈ l, x.value = y.value → x = y := by
  induction l with
  | nil => intro x hx; cases hx
  | cons a t ih =>
    intro x hx y hy hxy
    have hhead : ∀ z ∈ t, scanOrder a z := (List.pairwise_cons.mp h).1
    have htail := (List.pairwise_cons.mp h).2
    rcases List.mem_cons.mp hx with hx | hx <;> rcases List.mem_cons.mp hy with hy | hy
    · rw [hx, hy]
    · exfalso
      rw [hx] at hxy
      exact absurd hxy (ne_of_lt (hhead y hy).2)
    · exfalso
      rw [hy] at hxy
      exact absurd hxy.symm (ne_of_lt (hhead x hx).2)
    · exact ih htail x hx y hy hxy

theorem frontierAdd_to_empty (item : KnapsackItem) :
    frontierAdd [] item = [(item.weight.modifier, item)] := rfl

theorem frontierAdd_single_bump (d item : KnapsackItem)
    (hmod : item.weight.modifier = 1) (hdv : d.value < item.value) :
    frontierAdd [(1, d)] item = [(1, item)] := by
  have hdrop : ([((1 : ℚ), d)]).dropWhile (fun e => decide (e.1 < item.weight.modifier)) =
      [(1, d)] := by
    rw [List.dropWhile_cons]
    rw [hmod]
    simp
  rw [frontierAdd_of_dropWhile_key_nil [(1, d)] item 1 d hdrop hmod.symm]
  rw [if_pos hdv]
  have htake : ([((1 : ℚ), d)]).takeWhile (fun e => decide (e.1 < item.weight.modifier)) =
      [] := by
    rw [List.takeWhile_cons]
    rw [hmod]
    simp
  rw [htake]
  simp [walkBack, hmod]

theorem frontierLookup_single_self (d : KnapsackItem) (m : ℚ) (hm : ¬ (1 : ℚ) < m) :
    frontierLookup [(1, d)] m = some d := by
  simp only [frontierLookup, List.dropWhile_cons]
  simp [hm]


theorem weight_ext (a b : KnapsackWeight) (h1 : a.cost = b.cost)
    (h2 : a.modifier = b.modifier) : a = b := by
  cases a
  cases b
  simp only at h1 h2
  rw [h1, h2]

theorem itemLe_of_core (x y0 y : KnapsackItem) (hw : y0.weight = x.weight)
    (hv : y0.value = x.value) (hn : y0.name = x.name) (h : itemLe y0 y) : itemLe x y := by
  unfold itemLe itemLt at h ⊢
  rw [← hw, ← hv, ← hn]
  exact h

theorem mergeAltAt_map_core (n : List String) :
    ∀ (l : List KnapsackItem) (i : ℕ),
      (mergeAltAt l i n).map (fun x => (x.weight, x.value, x.name)) =
        l.map (fun x => (x.weight, x.value, x.name)) := by
  intro l
  induction l with
  | nil => intro i; rfl
  | cons a t ih =>
    intro i
    cases i with
    | zero =>
      simp only [mergeAltAt, List.map_cons]
      rw [addAlternative_weight, addAlternative_value, addAlternative_name]
    | succ j =>
      simp only [mergeAltAt, List.map_cons]
      rw [ih j]

theorem mergeAltAt_mem_core (n : List String) (l : List KnapsackItem) (i : ℕ) :
    ∀ x ∈ mergeAltAt l i n, ∃ y ∈ l, y.weight = x.weight ∧ y.value = x.value ∧
      y.name = x.name := by
  intro x hx
  have hmap := mergeAltAt_map_core n l i
  have hin : (x.weight, x.value, x.name) ∈ l.map (fun x => (x.weight, x.value, x.name)) := by
    rw [← hmap]
    exact List.mem_map.mpr ⟨x, hx, rfl⟩
  rcases List.mem_map.mp hin with ⟨y, hy, hyx⟩
  refine ⟨y, hy, congrArg Prod.fst hyx, ?_, ?_⟩
  · exact congrArg (fun p => p.2.1) hyx
  · exact congrArg (fun p => p.2.2) hyx

set_option maxHeartbeats 1600000 in
theorem scanStep1_inv (st : ScanState) (item : KnapsackItem)
    (hinv : ScanInv1 st)
    (hcross : ∀ x ∈ st.acc, itemLe x item)
    (hmoditem : item.weight.modifier = 1) :
    ScanInv1 (scanStep 1 st item) ∧
    (∀ x ∈ (scanStep 1 st item).acc, ∃ y, (y ∈ st.acc ∨ y = item) ∧
      y.weight = x.weight ∧ y.value = x.value ∧ y.name = x.name) := by
  obtain ⟨hpw, hmods, hnil, hne⟩ := hinv
  by_cases hacc : st.acc = []
  · obtain ⟨hf, hlt⟩ := hnil hacc
    have hdom : dominatedAlt st item = (0, false, st.lesser) := by
      simp only [dominatedAlt]
      rw [hf, hlt]
      rfl
    have hstep : scanStep 1 st item =
        ⟨frontierAdd st.frontier item, some item, st.acc.length, st.lesser,
          st.hasMod || decide (item.weight.modifier ≠ 1), st.acc ++ [item]⟩ := by
      simp [scanStep, hdom]
    rw [hstep]
    constructor
    · refine ⟨?_, ?_, ?_, ?_⟩
      · rw [hacc]
        simp [List.pairwise_cons]
      · intro x hx
        rw [hacc] at hx
        simp only [List.nil_append, List.mem_singleton] at hx
        rw [hx]
        exact hmoditem
      · intro hc
        rw [hacc] at hc
        simp at hc
      · intro _
        refine ⟨item, item, ?_, rfl, rfl, ?_, ?_, ?_⟩
        · rw [hf, frontierAdd_to_empty, hmoditem]
        · refine ⟨item, ?_, rfl, rfl⟩
          rw [hacc]
          simp
        · refine ⟨item, ?_, rfl, rfl⟩
          rw [hacc]
          simp
        · intro x hx
          rw [hacc] at hx
          simp only [List.nil_append, List.mem_singleton] at hx
          rw [hx]
    · intro x hx
      simp only [List.mem_append, List.mem_singleton] at hx
      rcases hx with hx | hx
      · exact ⟨x, Or.inl hx, rfl, rfl, rfl⟩
      · exact ⟨item, Or.inr rfl, by rw [hx], by rw [hx], by rw [hx]⟩
  · obtain ⟨d, L, hf, hlt, hLd, ⟨x0, hx0, hx0w, hx0v⟩, ⟨xl, hxl, hxlw, hxlv⟩, hmax⟩ :=
      hne hacc
    have hlkup : frontierLookup st.frontier item.weight.modifier = some d := by
      rw [hf]
      refine frontierLookup_single_self d _ ?_
      rw [hmoditem]
      exact lt_irrefl 1
    by_cases hc2 : item.value = L.value ∧ item.weight = L.weight
    · -- exact alternative of the last top survivor: merged and removed
      have hdom2 : 0 < (dominatedAlt st item).1 ∧ (dominatedAlt st item).2.1 = true := by
        simp only [dominatedAlt, hlkup, hlt]
        rw [if_pos hc2]
        exact ⟨Nat.succ_pos _, rfl⟩
      have hstep : scanStep 1 st item =
          ⟨st.frontier, st.lastTop, st.lastTopIdx, (dominatedAlt st item).2.2,
            st.hasMod, mergeAltAt st.acc st.lastTopIdx item.name⟩ := by
        have h2 : 1 < (dominatedAlt st item).1 + 1 := by
          have := hdom2.1
          omega
        simp only [scanStep]
        rw [if_pos hdom2.1, if_pos h2, hdom2.2]
        rw [hlt]
        simp
      rw [hstep]
      constructor
      · refine ⟨?_, ?_, ?_, ?_⟩
        · exact mergeAltAt_pairwise _ _ _ hpw
        · intro x hx
          rcases mergeAltAt_mem_wv _ _ _ x hx with ⟨y, hy, hyw, hyv⟩
          rw [← hyw]
          exact hmods y hy
        · intro hc
          exact absurd hc (mergeAltAt_ne_nil _ _ _ hacc)
        · intro _
          refine ⟨d, L, hf, hlt, hLd, ?_, ?_, ?_⟩
          · rcases mergeAltAt_mem_wv_rev item.name st.acc st.lastTopIdx x0 hx0 with
              ⟨y, hy, hyw, hyv⟩
            exact ⟨y, hy, by rw [hyw, hx0w], by rw [hyv, hx0v]⟩
          · rcases mergeAltAt_mem_wv_rev item.name st.acc st.lastTopIdx xl hxl with
              ⟨y, hy, hyw, hyv⟩
            exact ⟨y, hy, by rw [hyw, hxlw], by rw [hyv, hxlv]⟩
          · intro x hx
            rcases mergeAltAt_mem_wv _ _ _ x hx with ⟨y, hy, hyw, hyv⟩
            rw [← hyv]
            exact hmax y hy
      · intro x hx
        rcases mergeAltAt_mem_core item.name st.acc st.lastTopIdx x hx with
          ⟨y, hy, hyw, hyv, hyn⟩
        exact ⟨y, Or.inl hy, hyw, hyv, hyn⟩
    · by_cases hc1 : item.value < d.value ∨
          (item.value = d.value ∧ weightGt item.weight d.weight) 
      · -- dominated through the frontier: removed, nothing else changes
        have hdom2 : 0 < (dominatedAlt st item).1 ∧ (dominatedAlt st item).2.1 = false := by
          simp only [dominatedAlt, hlkup, hlt]
          rw [if_pos hc1, if_neg hc2]
          exact ⟨Nat.succ_pos _, rfl⟩
        have hstep : scanStep 1 st item =
            ⟨st.frontier, st.lastTop, st.lastTopIdx, (dominatedAlt st item).2.2,
              st.hasMod, st.acc⟩ := by
          have h2 : 1 < (dominatedAlt st item).1 + 1 := by
            have := hdom2.1
            omega
          simp only [scanStep]
          rw [if_pos hdom2.1, if_pos h2, hdom2.2]
          simp
        rw [hstep]
        constructor
        · refine ⟨hpw, hmods, ?_, ?_⟩
          · intro hc
            exact absurd hc hacc
          · intro _
            exact ⟨d, L, hf, hlt, hLd, ⟨x0, hx0, hx0w, hx0v⟩, ⟨xl, hxl, hxlw, hxlv⟩, hmax⟩
        · intro x hx
          exact ⟨x, Or.inl hx, rfl, rfl, rfl⟩
      · -- a new top survivor
        have hdneq : ¬ item.value = d.value := by
          intro heq
          have hngt : ¬ weightGt item.weight d.weight := by
            intro hgt
            exact hc1 (Or.inr ⟨heq, hgt⟩)
          have hcases : weightLt item.weight d.weight ∨ item.weight = d.weight := by
            unfold weightGt at hngt
            rw [not_not] at hngt
            exact hngt
          rcases hcases with hcase | hcase
          · have hle0 : itemLe x0 item := hcross x0 hx0
            unfold itemLe itemLt at hle0
            push_neg at hle0
            obtain ⟨hl1, hl2, hl3⟩ := hle0
            rw [hx0w] at hl1
            exact hl1 hcase
          · have hxlval : xl.value = x0.value := by
              rw [hxlv, hLd, ← hx0v]
            have hxleq : xl = x0 := pairwise_value_unique st.acc hpw xl hxl x0 hx0 hxlval
            refine hc2 ⟨?_, ?_⟩
            · rw [heq, ← hLd]
            · rw [hcase, ← hx0w, ← hxleq, hxlw]
        have hdv : d.value < item.value := by
          have hle : d.value ≤ item.value := by
            by_contra hcon
            push_neg at hcon
            exact hc1 (Or.inl hcon)
          exact lt_of_le_of_ne hle (fun hc => hdneq hc.symm)
        have hdom2 : dominatedAlt st item = (0, false, st.lesser) := by
          simp only [dominatedAlt, hlkup, hlt]
          rw [if_neg hc1, if_neg hc2]
        have hstep : scanStep 1 st item =
            ⟨frontierAdd st.frontier item, some item, st.acc.length, st.lesser,
              st.hasMod || decide (item.weight.modifier ≠ 1), st.acc ++ [item]⟩ := by
          simp [scanStep, hdom2]
        rw [hstep]
        have hstrict : ∀ z ∈ st.acc, scanOrder z item := by
          intro z hz
          have hzv : z.value < item.value := lt_of_le_of_lt (hmax z hz) hdv
          have hle : itemLe z item := hcross z hz
          unfold itemLe itemLt at hle
          push_neg at hle
          obtain ⟨hl1, hl2, hl3⟩ := hle
          unfold weightLt at hl1
          push_neg at hl1
          obtain ⟨hl1a, hl1b⟩ := hl1
          refine ⟨?_, hzv⟩
          rcases lt_or_eq_of_le hl1a with hcl | hcl
          · exact hcl
          · exfalso
            have hzw : z.weight = item.weight :=
              weight_ext _ _ hcl (by rw [hmods z hz, hmoditem])
            have := hl2 hzw.symm
            exact absurd hzv (not_lt.mpr this)
        constructor
        · refine ⟨?_, ?_, ?_, ?_⟩
          · rw [List.pairwise_append]
            refine ⟨hpw, List.pairwise_singleton _ _, ?_⟩
            intro z hz y hy
            rw [List.mem_singleton] at hy
            rw [hy]
            exact hstrict z hz
          · intro x hx
            rcases List.mem_append.mp hx with hx | hx
            · exact hmods x hx
            · rw [List.mem_singleton] at hx
              rw [hx]
              exact hmoditem
          · intro hc
            have := congrArg List.length hc
            simp at this
          · intro _
            refine ⟨item, item, ?_, rfl, rfl, ?_, ?_, ?_⟩
            · rw [hf, frontierAdd_single_bump d item hmoditem hdv]
            · exact ⟨item, List.mem_append.mpr (Or.inr (List.mem_singleton.mpr rfl)),
                rfl, rfl⟩
            · exact ⟨item, List.mem_append.mpr (Or.inr (List.mem_singleton.mpr rfl)),
                rfl, rfl⟩
            · intro x hx
              rcases List.mem_append.mp hx with hx | hx
              · exact le_trans (hmax x hx) (le_of_lt hdv)
              · rw [List.mem_singleton] at hx
                rw [hx]
        · intro x hx
          rcases List.mem_append.mp hx with hx | hx
          · exact ⟨x, Or.inl hx, rfl, rfl, rfl⟩
          · rw [List.mem_singleton] at hx
            exact ⟨item, Or.inr rfl, by rw [hx], by rw [hx], by rw [hx]⟩

theorem scanGo1_inv : ∀ (rest : List KnapsackItem) (st : ScanState),
    ScanInv1 st →
    (∀ x ∈ st.acc, ∀ y ∈ rest, itemLe x y) →
    (∀ y ∈ rest, y.weight.modifier = 1) →
    rest.Pairwise itemLe →
    ScanInv1 (scanGo 1 st rest) := by
  intro rest
  induction rest with
  | nil =>
    intro st hinv _ _ _
    exact hinv
  | cons a t ih =>
    intro st hinv hcross hmods hpw
    have hstep := scanStep1_inv st a hinv
      (fun x hx => hcross x hx a (List.mem_cons_self a t))
      (hmods a (List.mem_cons_self a t))
    refine ih (scanStep 1 st a) hstep.1 ?_
      (fun y hy => hmods y (List.mem_cons_of_mem _ hy))
      (List.pairwise_cons.mp hpw).2
    intro x hx y hy
    rcases hstep.2 x hx with ⟨z, hz, hw, hv, hn⟩
    rcases hz with hz | hz
    · exact itemLe_of_core x z y hw hv hn (hcross z hz y (List.mem_cons_of_mem _ hy))
    · refine itemLe_of_core x z y hw hv hn ?_
      rw [hz]
      exact (List.pairwise_cons.mp hpw).1 y hy


theorem dictInsert_append_fresh (acc : List (KnapsackWeight × KnapsackItem))
    (it : KnapsackItem) (h : ∀ e ∈ acc, e.1 ≠ it.weight) :
    dictInsert acc it = acc ++ [(it.weight, it)] := by
  induction acc with
  | nil => rfl
  | cons e rest ih =>
    have hne : ¬ e.1 = it.weight := h e (List.mem_cons_self e rest)
    rw [dictInsert_cons, if_neg hne]
    rw [ih (fun e2 he2 => h e2 (List.mem_cons_of_mem e he2))]
    rfl

theorem buildDict_eq_map :
    ∀ (l : List KnapsackItem) (acc : List (KnapsackWeight × KnapsackItem)),
      (∀ i ∈ l, ∀ e ∈ acc, e.1 ≠ i.weight) →
      l.Pairwise (fun a b => a.weight ≠ b.weight) →
      l.foldl dictInsert acc = acc ++ l.map (fun i => (i.weight, i)) := by
  intro l
  induction l with
  | nil => intro acc _ _; simp
  | cons i t ih =>
    intro acc hfresh hpw
    have hstep : dictInsert acc i = acc ++ [(i.weight, i)] :=
      dictInsert_append_fresh acc i
        (fun e he => hfresh i (List.mem_cons_self i t) e he)
    have hrec := ih (acc ++ [(i.weight, i)]) ?_ (List.pairwise_cons.mp hpw).2
    · have hfold : (i :: t).foldl dictInsert acc = t.foldl dictInsert (dictInsert acc i) := rfl
      rw [hfold, hstep, hrec]
      simp
    · intro j hj e he
      rcases List.mem_append.mp he with he | he
      · exact hfresh j (List.mem_cons_of_mem i hj) e he
      · rw [List.mem_singleton] at he
        rw [he]
        intro hc
        exact absurd hc ((List.pairwise_cons.mp hpw).1 j hj)

theorem getLast?_take_eq {α : Type} (l : List α) (n : ℕ) (h1 : 0 < n)
    (h2 : n ≤ l.length) : (l.take n).getLast? = l[n - 1]? := by
  rw [List.getLast?_eq_getElem?]
  rw [List.length_take]
  have hmin : min n l.length = n := min_eq_left h2
  rw [hmin]
  rw [List.getElem?_take]
  rw [if_pos (by omega)]

/-- C8: on a Frontier built by the program — a `count = 1` reduction scan over
a sorted, modifier-free candidate list (the shape every
`solution_by_weight_percentage` result has, since normalization resets all
modifiers to `1.0`), followed by the weight-keyed dict — the value of the best
(first) Candidate `best_for_cost` returns is monotonically non-decreasing in
the budget. -/
theorem C8_best_value_monotone (l : List KnapsackItem)
    (hmods : ∀ x ∈ l, x.weight.modifier = 1)
    (hsort : l.Pairwise itemLe)
    (b1 b2 : ℚ) (hb : b1 ≤ b2) (k1 k2 : ℕ) (h1 h2 : KnapsackItem)
    (t1 t2 : List KnapsackItem)
    (hr1 : bestForCost (solutionEntries (scanAll 1 false l).1 false) b1 k1 =
      some (h1 :: t1))
    (hr2 : bestForCost (solutionEntries (scanAll 1 false l).1 false) b2 k2 =
      some (h2 :: t2)) :
    h1.value ≤ h2.value := by
  have hinit : ScanInv1 (initScanState false) := by
    refine ⟨List.Pairwise.nil, ?_, ?_, ?_⟩
    · intro x hx
      cases hx
    · intro _
      exact ⟨rfl, rfl⟩
    · intro hc
      exact absurd rfl hc
  have hinv : ScanInv1 (scanGo 1 (initScanState false) l) :=
    scanGo1_inv l (initScanState false) hinit (by intro x hx; cases hx) hmods hsort
  obtain ⟨hspw, hsmods, _, _⟩ := hinv
  have hwne : ((scanAll 1 false l).1).Pairwise (fun a b => a.weight ≠ b.weight) := by
    refine hspw.imp ?_
    intro a b hab hc
    have : a.weight.cost = b.weight.cost := congrArg KnapsackWeight.cost hc
    exact absurd this (ne_of_lt hab.1)
  have hentries : solutionEntries (scanAll 1 false l).1 false =
      ((scanAll 1 false l).1).map (fun i => (i.weight, i)) := by
    have := buildDict_eq_map (scanAll 1 false l).1 [] (by intro i hi e he; cases he) hwne
    simpa using this
  set survs := (scanAll 1 false l).1 with hsurvs
  set entries := survs.map (fun i => (i.weight, i)) with hentriesdef
  rw [hentries] at hr1 hr2
  have hlen : entries.length = survs.length := List.length_map _ _
  have hmono : ∀ (b b2 : ℚ), b ≤ b2 →
      bisectRightWeights entries ⟨b, 1⟩ ≤ bisectRightWeights entries ⟨b2, 1⟩ := by
    intro c1 c2 hc
    refine List.countP_mono_left ?_
    intro e he hp
    rw [decide_eq_true_iff] at hp ⊢
    intro hlt
    refine hp ?_
    rcases List.mem_map.mp he with ⟨s, hs, hse⟩
    have hsmod : e.1.modifier = 1 := by
      rw [← hse]
      exact hsmods s hs
    unfold weightLt at hlt ⊢
    rcases hlt with hlt | ⟨hlt, hm⟩
    · exact Or.inl (lt_of_le_of_lt hc hlt)
    · exfalso
      rw [hsmod] at hm
      simp at hm
  have hextract : ∀ (b : ℚ) (k : ℕ) (h : KnapsackItem) (t : List KnapsackItem),
      bestForCost entries b k = some (h :: t) →
      ∃ n, n = bisectRightWeights entries ⟨b, 1⟩ ∧ 0 < n ∧ n ≤ survs.length ∧
        survs[n - 1]? = some h := by
    intro b k h t hr
    simp only [bestForCost] at hr
    set n := bisectRightWeights entries ⟨b, 1⟩ with hndef
    by_cases hn : n = 0
    · rw [if_pos hn] at hr
      cases hr
    · rw [if_neg hn] at hr
      have heq := Option.some.inj hr
      have hnle : n ≤ entries.length := by
        rw [hndef]
        exact List.countP_le_length _
      have hslice_len : ((entries.take n).drop (n - k)).length = t.length + 1 := by
        have := congrArg List.length heq
        simpa using this
      have hdroplt : n - k < (entries.take n).length := by
        by_contra hcon
        push_neg at hcon
        rw [List.length_drop] at hslice_len
        omega
      have hhead := congrArg List.head? heq
      rw [List.head?_map, List.head?_reverse] at hhead
      rw [getLast?_drop_eq _ _ hdroplt] at hhead
      rw [getLast?_take_eq entries n (Nat.pos_of_ne_zero hn) hnle] at hhead
      rw [hentriesdef, List.getElem?_map] at hhead
      refine ⟨n, hndef, Nat.pos_of_ne_zero hn, ?_, ?_⟩
      · rw [← hlen]
        exact hnle
      · cases hsv : survs[n - 1]? with
        | none =>
          simp only [hsv] at hhead
          simp at hhead
        | some s =>
          simp only [hsv] at hhead
          simp at hhead
          simp [hhead]
  rcases hextract b1 k1 h1 t1 hr1 with ⟨n1, hn1def, hn1pos, hn1le, hs1⟩
  rcases hextract b2 k2 h2 t2 hr2 with ⟨n2, hn2def, hn2pos, hn2le, hs2⟩
  have hn12 : n1 ≤ n2 := by
    rw [hn1def, hn2def]
    exact hmono b1 b2 hb
  have hidx1 : n1 - 1 < survs.length := by omega
  have hidx2 : n2 - 1 < survs.length := by omega
  have hs1e : survs[n1 - 1]? = some (survs[n1 - 1]) := List.getElem?_eq_getElem hidx1
  have hs2e : survs[n2 - 1]? = some (survs[n2 - 1]) := List.getElem?_eq_getElem hidx2
  rw [hs1e] at hs1
  rw [hs2e] at hs2
  have hh1 : h1 = survs[n1 - 1] := (Option.some.inj hs1).symm
  have hh2 : h2 = survs[n2 - 1] := (Option.some.inj hs2).symm
  rw [hh1, hh2]
  rcases Nat.lt_or_ge (n1 - 1) (n2 - 1) with hlt | hge
  · have := List.pairwise_iff_getElem.mp hspw (n1 - 1) (n2 - 1) hidx1 hidx2 hlt
    exact le_of_lt this.2
  · have heqel : survs[n1 - 1] = survs[n2 - 1] := by
      congr 1
      omega
    rw [heqel]

/-- Witness for `C8_best_value_monotone`: the two-survivor frontier from items
`(cost 1, value 3)` and `(cost 2, value 9)` queried at budgets `1` and `2`. -/
theorem C8_best_value_monotone_witness :
    (∀ x ∈ [(⟨⟨1, 1⟩, 3, ["A"], []⟩ : KnapsackItem), ⟨⟨2, 1⟩, 9, ["B"], []⟩],
      x.weight.modifier = 1) ∧
    ([(⟨⟨1, 1⟩, 3, ["A"], []⟩ : KnapsackItem), ⟨⟨2, 1⟩, 9, ["B"], []⟩].Pairwise itemLe) ∧
    (1 : ℚ) ≤ 2 ∧
    bestForCost (solutionEntries
      (scanAll 1 false [⟨⟨1, 1⟩, 3, ["A"], []⟩, ⟨⟨2, 1⟩, 9, ["B"], []⟩]).1 false) 1 1 =
      some [⟨⟨1, 1⟩, 3, ["A"], []⟩] ∧
    bestForCost (solutionEntries
      (scanAll 1 false [⟨⟨1, 1⟩, 3, ["A"], []⟩, ⟨⟨2, 1⟩, 9, ["B"], []⟩]).1 false) 2 1 =
      some [⟨⟨2, 1⟩, 9, ["B"], []⟩] ∧
    (⟨⟨1, 1⟩, 3, ["A"], []⟩ : KnapsackItem).value ≤
      (⟨⟨2, 1⟩, 9, ["B"], []⟩ : KnapsackItem).value := by
  refine ⟨by decide, by decide, by norm_num, by decide, by decide, ?_⟩
  exact C8_best_value_monotone [⟨⟨1, 1⟩, 3, ["A"], []⟩, ⟨⟨2, 1⟩, 9, ["B"], []⟩]
    (by decide) (by decide) 1 2 (by norm_num) 1 1 _ _ [] [] (by decide) (by decide)

end
